import Mathlib

/-!
Verification development for the salve Relax NG validator.

The definitions below are shallow embeddings of the TypeScript sources of the
repository:

* `CN`, `matchN`, `wildcardMatch`, `toArray`, `makeTree`, `uniqueNames`,
  `subtract`, `inter`, `intersects` embed `lib/salve/name_patterns.ts`.
  The value `0` used by the source to denote the empty set is embedded as
  `none` in an `Option CN`; a thrown exception is embedded as `Except.error`
  carrying the thrown message.
* `Elt`, `walkE`, `step10` embed the tree rewriting of
  `lib/salve/conversion/simplifier/step10.ts` (with `check = false`;
  the `checkNames` checks do not change the tree).
* `Store` and its mutation operations embed the mutable `Element` tree of the
  conversion parser; nodes are identities (`Nat`), and the mutable
  parent/children pointers become an explicit store.
* `RWState`, `rwFireEvent`, `rwEnd` embed `RefWalker` of
  `lib/salve/patterns/ref.ts`; `refPrepare` embeds `Ref._prepare`.
* `Pat`, `newWalker`, `hasEmptyPattern` embed the pattern-level interface of
  `lib/salve/patterns/ref.ts` and `lib/salve/patterns/not_allowed.ts`.
* `GW`, `fireEvent` embed `GrammarWalker.fireEvent` of the grammar module.
-/

/-! ## Name patterns (`lib/salve/name_patterns.ts`) -/

/-- The sum of the four concrete name-pattern classes (`ConcreteName` in the
source): `Name`, `NameChoice`, `NsName`, `AnyName`.  The optional `except`
members are embedded as `Option CN` (`none` for `undefined`). -/
inductive CN where
  | name (ns nm : String)
  | nameChoice (a b : CN)
  | nsName (ns : String) (ex : Option CN)
  | anyName (ex : Option CN)

/-- Structural equality on name patterns (equality in the source is
structural). -/
def cnBeq : CN → CN → Bool
  | .name a b, .name c d => a == c && b == d
  | .nameChoice a b, .nameChoice c d => cnBeq a c && cnBeq b d
  | .nsName a none, .nsName c none => a == c
  | .nsName a (some e), .nsName c (some f) => a == c && cnBeq e f
  | .anyName none, .anyName none => true
  | .anyName (some e), .anyName (some f) => cnBeq e f
  | _, _ => false

def cnBeq_iff (x y : CN) : cnBeq x y = true ↔ x = y := by
  cases x with
  | name a b =>
    cases y with
    | name c d => simp [cnBeq]
    | nameChoice c d => simp [cnBeq]
    | nsName c ex => cases ex <;> simp [cnBeq]
    | anyName ex => cases ex <;> simp [cnBeq]
  | nameChoice a b =>
    cases y with
    | name c d => simp [cnBeq]
    | nameChoice c d =>
      simp only [cnBeq, Bool.and_eq_true, CN.nameChoice.injEq]
      rw [cnBeq_iff a c, cnBeq_iff b d]
    | nsName c ex => cases ex <;> simp [cnBeq]
    | anyName ex => cases ex <;> simp [cnBeq]
  | nsName a ex =>
    cases ex with
    | none =>
      cases y with
      | name c d => simp [cnBeq]
      | nameChoice c d => simp [cnBeq]
      | nsName c ex2 => cases ex2 <;> simp [cnBeq]
      | anyName ex2 => cases ex2 <;> simp [cnBeq]
    | some e =>
      cases y with
      | name c d => simp [cnBeq]
      | nameChoice c d => simp [cnBeq]
      | nsName c ex2 =>
        cases ex2 with
        | none => simp [cnBeq]
        | some f =>
          simp only [cnBeq, Bool.and_eq_true, beq_iff_eq, CN.nsName.injEq,
                     Option.some.injEq]
          rw [cnBeq_iff e f]
      | anyName ex2 => cases ex2 <;> simp [cnBeq]
  | anyName ex =>
    cases ex with
    | none =>
      cases y with
      | name c d => simp [cnBeq]
      | nameChoice c d => simp [cnBeq]
      | nsName c ex2 => cases ex2 <;> simp [cnBeq]
      | anyName ex2 => cases ex2 <;> simp [cnBeq]
    | some e =>
      cases y with
      | name c d => simp [cnBeq]
      | nameChoice c d => simp [cnBeq]
      | nsName c ex2 => cases ex2 <;> simp [cnBeq]
      | anyName ex2 =>
        cases ex2 with
        | none => simp [cnBeq]
        | some f =>
          simp only [cnBeq, CN.anyName.injEq, Option.some.injEq]
          rw [cnBeq_iff e f]

instance : DecidableEq CN :=
  fun x y => decidable_of_iff (cnBeq x y = true) (cnBeq_iff x y)

/-- `match(ns, name)` of each class.  `Name`: `this.name === name && this.ns
=== ns`.  `NameChoice`: `a.match || b.match`.  `NsName`: `this.ns === ns &&
!(this.except !== undefined && this.except.match(ns, name))`.  `AnyName`:
`this.except === undefined || !this.except.match(ns, name)`. -/
def matchN : CN → String → String → Bool
  | .name pns pn, ns, nm => pn == nm && pns == ns
  | .nameChoice a b, ns, nm => matchN a ns nm || matchN b ns nm
  | .nsName pns none, ns, _ => pns == ns
  | .nsName pns (some e), ns, nm => pns == ns && !(matchN e ns nm)
  | .anyName none, _, _ => true
  | .anyName (some e), ns, nm => !(matchN e ns nm)

/-- `wildcardMatch(ns, name)`: `false` for `Name`, the disjunction for
`NameChoice`, and `this.match(ns, name)` for `NsName` and `AnyName`. -/
def wildcardMatch : CN → String → String → Bool
  | .name _ _, _, _ => false
  | .nameChoice a b, ns, nm => wildcardMatch a ns nm || wildcardMatch b ns nm
  | .nsName pns ex, ns, nm => matchN (.nsName pns ex) ns nm
  | .anyName ex, ns, nm => matchN (.anyName ex) ns nm

/-- `toArray()`: the list of `Name`s of a simple pattern, `null` (`none`)
otherwise.  A `Name` is represented by its `(ns, name)` pair. -/
def toArray : CN → Option (List (String × String))
  | .name ns nm => some [(ns, nm)]
  | .nameChoice a b =>
    match toArray a, toArray b with
    | some la, some lb => some (la ++ lb)
    | _, _ => none
  | .nsName _ _ => none
  | .anyName _ => none

/-- `NameChoice.makeTree(names)`: left fold of the list into a tree of
`NameChoice`s; throws on the empty list. -/
def makeTree : List CN → Except String CN
  | [] => .error "trying to make a tree out of nothing"
  | [n] => .ok n
  | n0 :: n1 :: rest => .ok (rest.foldl CN.nameChoice (CN.nameChoice n0 n1))

/-- The deduplication performed in `NsName.intersection` through a JS `Map`
keyed by the string `` `{ns}name` ``: keys keep their first-insertion
position, and a later value with the same key carries the same `(ns, name)`
pair, so the result is the list with later duplicates removed. -/
def uniqueNames : List (String × String) → List (String × String)
  | [] => []
  | p :: rest => p :: uniqueNames (rest.filter (fun q => q ≠ p))
termination_by l => l.length
decreasing_by
  simpa using Nat.lt_succ_of_le (List.length_filter_le _ rest)

/-- Rebuild `Name` objects from `(ns, name)` pairs (the source keeps the
`Name` objects themselves in its arrays). -/
def pairsToNames (l : List (String × String)) : List CN :=
  l.map (fun p => CN.name p.1 p.2)

/-- The combination used both by `NameChoice.intersection` and by
`NameChoice.applyRecursively`:
`a === 0 ? b : (b === 0 ? a : new NameChoice(a, b))`. -/
def orChoice : Option CN → Option CN → Option CN
  | none, b => b
  | some a, none => some a
  | some a, some b => some (.nameChoice a b)

/-- `NsName.subtract(other)` where `this = NsName(tns, tex)`.

* `NameChoice` operand: `applyRecursively` with `fn = this.subtract`, which
  recurses into nested choices, applies `subtract` to `Name`/`NsName` leaves,
  throws on any other leaf, and combines results dropping `0`s.  Applying
  `subtract` itself to every child is the same recursion, and is used here.
* `AnyName` operand: excluded by the TypeScript signature; reached only
  through `applyRecursively`, whose guard throws.
* Different namespaces: returns `this`.
* `Name` operand, same namespace: `NsName(ns, except ∪ {name})`.
* `NsName` operand, same namespace: `0` when the operand has no `except`; the
  operand's `except` when `this` has none; otherwise
  `other.except \ this.except` via the arrays, `0` when empty. -/
def subtract (tns : String) (tex : Option CN) : CN → Except String (Option CN)
  | .nameChoice a b => do
    let ra ← subtract tns tex a
    let rb ← subtract tns tex b
    .ok (orChoice ra rb)
  | .anyName _ => .error "child is not Name or NsName"
  | .name ons onm =>
    if tns ≠ ons then .ok (some (.nsName tns tex))
    else .ok (some (.nsName tns (some (match tex with
      | none => .name ons onm
      | some e => .nameChoice e (.name ons onm)))))
  | .nsName ons oex =>
    if tns ≠ ons then .ok (some (.nsName tns tex))
    else match oex with
    | none => .ok none
    | some oe =>
      match tex with
      | none => .ok (some oe)
      | some te =>
        match toArray te, toArray oe with
        | some l1, some l2 =>
          let result := l2.filter
            (fun nm => !(l1.any (fun tn => nm.1 == tn.1 && nm.2 == tn.2)))
          if result.isEmpty then .ok none
          else do
            let t ← makeTree (pairsToNames result)
            .ok (some t)
        | _, _ => .error "NsName contains an except pattern which is not simple."

/-- Size measure used for the termination of `inter` and `intersects`. -/
def cnSize : CN → Nat
  | .name _ _ => 1
  | .nameChoice a b => 1 + cnSize a + cnSize b
  | .nsName _ none => 1
  | .nsName _ (some e) => 1 + cnSize e
  | .anyName none => 1
  | .anyName (some e) => 1 + cnSize e

/-- `p.intersection(q)` for `p q` concrete names.  Method dispatch is on the
first argument; the delegations `other.intersection(this)` performed by
`Name.intersection` and `NsName.intersection` are inlined as the corresponding
case of the target class.  The source's `other === 0` guards concern only
direct calls with `0`, which cannot arise here.  `AnyName.intersection` of a
`NameChoice` reaches the `throw new Error("cannot compute intersection!")`. -/
def inter (p q : CN) : Except String (Option CN) :=
  match p, q with
  -- Name.intersection(Name): this.match(other.ns, other.name) ? this : 0
  | .name ns1 n1, .name ns2 n2 =>
    .ok (if matchN (.name ns1 n1) ns2 n2 then some (.name ns1 n1) else none)
  -- Name.intersection(NameChoice), via NameChoice.intersection(Name)
  | .name ns1 n1, .nameChoice a b => do
    let ra ← inter a (.name ns1 n1)
    let rb ← inter b (.name ns1 n1)
    .ok (orChoice ra rb)
  -- Name.intersection(NsName), via NsName.intersection(Name)
  | .name ns1 n1, .nsName ns2 ex2 =>
    if ns2 ≠ ns1 then .ok none
    else match ex2 with
      | none => .ok (some (.name ns1 n1))
      | some e => do
        let r ← inter (.name ns1 n1) e
        .ok (if r.isNone then some (.name ns1 n1) else none)
  -- Name.intersection(AnyName), via AnyName.intersection(Name)
  | .name ns1 n1, .anyName ex2 =>
    match ex2 with
    | none => .ok (some (.name ns1 n1))
    | some e => do
      let r ← inter e (.name ns1 n1)
      .ok (if r.isNone then some (.name ns1 n1) else none)
  -- NameChoice.intersection(other)
  | .nameChoice a b, q2 => do
    let ra ← inter a q2
    let rb ← inter b q2
    .ok (orChoice ra rb)
  -- NsName.intersection(Name)
  | .nsName ns1 ex1, .name ns2 n2 =>
    if ns1 ≠ ns2 then .ok none
    else match ex1 with
      | none => .ok (some (.name ns2 n2))
      | some e => do
        let r ← inter (.name ns2 n2) e
        .ok (if r.isNone then some (.name ns2 n2) else none)
  -- NsName.intersection(NameChoice), via NameChoice.intersection(NsName)
  | .nsName ns1 ex1, .nameChoice a b => do
    let ra ← inter a (.nsName ns1 ex1)
    let rb ← inter b (.nsName ns1 ex1)
    .ok (orChoice ra rb)
  -- NsName.intersection(NsName)
  | .nsName ns1 ex1, .nsName ns2 ex2 =>
    if ns1 ≠ ns2 then .ok none
    else match ex1, ex2 with
      | some e1, some e2 =>
        match toArray e1, toArray e2 with
        | some l1, some l2 => do
          let t ← makeTree (pairsToNames (uniqueNames (l1 ++ l2)))
          .ok (some (.nsName ns1 (some t)))
        | _, _ => .error "complex pattern found in NsName except"
      | _, some _ => .ok (some (.nsName ns2 ex2))
      | _, none => .ok (some (.nsName ns1 ex1))
  -- NsName.intersection(AnyName), via AnyName.intersection(NsName)
  | .nsName ns1 ex1, .anyName ex2 =>
    match ex2 with
    | none => .ok (some (.nsName ns1 ex1))
    | some e => do
      let neg ← inter e (.nsName ns1 ex1)
      match neg with
      | none => .ok (some (.nsName ns1 ex1))
      | some negv => subtract ns1 ex1 negv
  -- AnyName.intersection(other) with this.except === undefined: return other
  | .anyName none, q2 => .ok (some q2)
  -- AnyName.intersection(Name)
  | .anyName (some e), .name ns2 n2 => do
    let r ← inter e (.name ns2 n2)
    .ok (if r.isNone then some (.name ns2 n2) else none)
  -- AnyName.intersection(NsName)
  | .anyName (some e), .nsName ns2 ex2 => do
    let neg ← inter e (.nsName ns2 ex2)
    match neg with
    | none => .ok (some (.nsName ns2 ex2))
    | some negv => subtract ns2 ex2 negv
  -- AnyName.intersection(AnyName)
  | .anyName (some e), .anyName ex2 =>
    match ex2 with
    | some e2 => .ok (some (.anyName (some (.nameChoice e e2))))
    | none => .ok (some (.anyName (some e)))
  -- AnyName.intersection(NameChoice): falls through every isXxx test
  | .anyName (some _), .nameChoice _ _ => .error "cannot compute intersection!"
termination_by cnSize p + cnSize q
decreasing_by
  all_goals simp [cnSize]
  all_goals omega

/-- Reduction of `Except.ok a >>= f`, used to evaluate the `Except`-valued
embeddings. -/
def exc_bind_ok {α β ε : Type} : ∀ (a : α) (f : α → Except ε β),
    (Except.ok a : Except ε α) >>= f = f a := fun _ _ => rfl

/-- `p.intersects(q)`, with the same dispatch and delegation conventions as
`inter`, including the short-circuiting of `&&` and `||`. -/
def intersects (p q : CN) : Except String Bool :=
  match p, q with
  -- Name.intersects(Name): this.match(other.ns, other.name)
  | .name ns1 n1, .name ns2 n2 => .ok (matchN (.name ns1 n1) ns2 n2)
  -- Name.intersects(NameChoice), via NameChoice.intersects(Name)
  | .name ns1 n1, .nameChoice a b => do
    let ra ← intersects a (.name ns1 n1)
    if ra then .ok true else intersects b (.name ns1 n1)
  -- Name.intersects(NsName), via NsName.intersects(Name)
  | .name ns1 n1, .nsName ns2 ex2 =>
    if ns2 ≠ ns1 then .ok false
    else match ex2 with
      | none => .ok true
      | some e => do
        let r ← intersects (.name ns1 n1) e
        .ok (!r)
  -- Name.intersects(AnyName), via AnyName.intersects(Name)
  | .name ns1 n1, .anyName ex2 =>
    match ex2 with
    | none => .ok true
    | some e => do
      let r ← intersects e (.name ns1 n1)
      .ok (!r)
  -- NameChoice.intersects(other)
  | .nameChoice a b, q2 => do
    let ra ← intersects a q2
    if ra then .ok true else intersects b q2
  -- NsName.intersects(Name)
  | .nsName ns1 ex1, .name ns2 n2 =>
    if ns1 ≠ ns2 then .ok false
    else match ex1 with
      | none => .ok true
      | some e => do
        let r ← intersects (.name ns2 n2) e
        .ok (!r)
  -- NsName.intersects(NameChoice), via NameChoice.intersects(NsName)
  | .nsName ns1 ex1, .nameChoice a b => do
    let ra ← intersects a (.nsName ns1 ex1)
    if ra then .ok true else intersects b (.nsName ns1 ex1)
  -- NsName.intersects(NsName): this.ns === other.ns
  | .nsName ns1 _, .nsName ns2 _ => .ok (ns1 == ns2)
  -- NsName.intersects(AnyName), via AnyName.intersects(NsName)
  | .nsName ns1 ex1, .anyName ex2 =>
    match ex2 with
    | none => .ok true
    | some e => do
      let neg ← inter e (.nsName ns1 ex1)
      match neg with
      | none => .ok true
      | some negv => do
        let d ← subtract ns1 ex1 negv
        .ok (!d.isNone)
  -- AnyName.intersects(AnyName): true
  | .anyName _, .anyName _ => .ok true
  -- AnyName.intersects(other) with this.except === undefined: true
  | .anyName none, _ => .ok true
  -- AnyName.intersects(Name): !this.except.intersects(other)
  | .anyName (some e), .name ns2 n2 => do
    let r ← intersects e (.name ns2 n2)
    .ok (!r)
  -- AnyName.intersects(NsName)
  | .anyName (some e), .nsName ns2 ex2 => do
    let neg ← inter e (.nsName ns2 ex2)
    match neg with
    | none => .ok true
    | some negv => do
      let d ← subtract ns2 ex2 negv
      .ok (!d.isNone)
  -- AnyName.intersects(NameChoice): falls through to the throw
  | .anyName (some _), .nameChoice _ _ => .error "cannot compute intersection!"
termination_by cnSize p + cnSize q
decreasing_by
  all_goals simp [cnSize]
  all_goals omega

/-! ## Validation errors (`lib/salve/errors.ts`)

The error classes are embedded as plain data carrying the constructor
arguments used at their creation sites in the embedded sources. -/

inductive VError where
  | validationError (msg : String)
  | attributeNameError (msg : String) (nm : CN)
  | elementNameError (msg : String) (nm : CN)
deriving DecidableEq

/-! ## `RefWalker` (`lib/salve/patterns/ref.ts`) -/

/-- The mutable state of a `RefWalker`: the `startName` (the referenced
element's name class) and the two `canEndAttribute` / `canEnd` booleans.  The
`el`, `element` and `startTagEvent` members never change and do not affect
the embedded methods beyond `startName`. -/
structure RWState where
  startName : CN
  canEndAttribute : Bool
  canEnd : Bool
deriving DecidableEq

/-- `InternalFireEventResult` as returned by the embedded walkers: `matched`,
optional `errors`, optional `refs` (the source stores `RefWalker` objects in
`refs`; here the walker states). -/
structure RFireRes where
  matched : Bool
  errors : Option (List VError)
  refs : Option (List RWState)
deriving DecidableEq

/-- `RefWalker.fireEvent(name, params)`.  The in-place mutation of `canEnd`
becomes the second component of the result. -/
def rwFireEvent (w : RWState) (name : String) (ps : List String) :
    RFireRes × RWState :=
  if !w.canEnd && (name == "enterStartTag" || name == "startTagAndAttributes")
      && matchN w.startName (ps.getD 0 "") (ps.getD 1 "") then
    let w2 := { w with canEnd := true }
    (⟨true, none, some [w2]⟩, w2)
  else (⟨false, none, none⟩, w)

/-- `RefWalker.end()`: `EndResult` is `false` (embedded as `none`) or a list
of errors (embedded as `some`). -/
def rwEnd (w : RWState) : Option (List VError) :=
  if !w.canEnd then some [.elementNameError "tag required" w.startName]
  else none

/-! ## `Ref` and `NotAllowed` patterns (`ref.ts`, `not_allowed.ts`) -/

/-- The slice of the `Element` pattern consulted by `Ref.newWalker`: its name
class and its `notAllowed` member.  Modelled from the spec: the `Element`
pattern class (`lib/salve/patterns/element.ts`) is not among the sources; per
the pattern model of the spec an element pattern carries a name class and a
content pattern, and `notAllowed` marks an element whose content pattern is
`NotAllowed`, in which case `element.pat.newWalker()` is the `NotAllowed`
singleton walker. -/
structure ElementP where
  name : CN
  notAllowed : Bool
deriving DecidableEq

/-- The patterns whose walker construction is among the sources: `NotAllowed`
and a resolved `Ref` (after `_prepare`, a `Ref` holds the `Element` of its
`Define`). -/
inductive Pat where
  | notAllowedP
  | refP (rname : String) (target : ElementP)
deriving DecidableEq

/-- The walkers those patterns can produce. -/
inductive PWalker where
  | notAllowedWalker
  | refWalker (w : RWState)
deriving DecidableEq

/-- `canEnd` of a fresh or running walker: the `NotAllowedWalker` constructor
sets `canEnd = true`; a `RefWalker` reports its mutable flag. -/
def PWalker.canEnd : PWalker → Bool
  | .notAllowedWalker => true
  | .refWalker w => w.canEnd

/-- `hasEmptyPattern()`.  For `Ref` the source returns `false` ("Refs always
contain an element at the top level").  For `NotAllowed` the method is
inherited from the pattern base class, which is not among the sources;
modelled from the spec: `hasEmptyPattern()` reports "whether the pattern
accepts the empty sequence", and `NotAllowed` accepts nothing, so `false`. -/
def hasEmptyPattern : Pat → Bool
  | .refP _ _ => false
  | .notAllowedP => false

/-- `newWalker()`.  `NotAllowed.newWalker` returns the singleton
`NotAllowedWalker`.  `Ref.newWalker` returns `element.pat.newWalker()` when
`element.notAllowed`, and otherwise a fresh
`RefWalker(..., canEndAttribute = true, canEnd = false)`. -/
def newWalker : Pat → PWalker
  | .notAllowedP => .notAllowedWalker
  | .refP _ t =>
    if t.notAllowed then .notAllowedWalker
    else .refWalker ⟨t.name, true, false⟩

/-- A `Define`, as consulted by `Ref._prepare`: only its identity matters
here. -/
structure DefineP where
  dname : String
deriving DecidableEq

/-- `Ref._prepare(definitions)`: looks the reference name up in the
definitions map; on a miss it throws
`new Error("${this.name} cannot be resolved")` — written with plain quotes in
the source, so the thrown message is that literal text, not a template
expansion.  The braces of the literal are written here with their character
codes. -/
def refPrepare (name : String) (definitions : List (String × DefineP)) :
    Except String DefineP :=
  match definitions.lookup name with
  | some d => .ok d
  | none => .error "$\x7bthis.name\x7d cannot be resolved"

/-! ## Simplification step 10 (`conversion/simplifier/step10.ts`)

The mutable element tree is embedded as a rose tree; parent pointers are
implicit in the tree structure, and moving children between elements (through
`Element.makeElement(name, children)`, `grabChildren`, `appendChild`,
`prependChild`, `replaceChildWith`) becomes ordinary tree construction.

The source's `walk` transforms a node in place and then walks its (current)
children, re-walking any replacement until `walk` returns `null`; `step10`
does the same at the root.  The embedded `walkE` computes the end result of
that process:

* The per-node transformation only regroups children, never inspects them,
  while the trailing loop (and the re-walk of replacements) fully walks every
  child exactly once; hence walking commutes with the regrouping, and `walkE`
  walks the children first (`walkL`) and then applies the regrouping
  (`assemble`).
* A wrapper created by the transformation (`group`, `oneOrMore`, `choice`,
  `interleave`, `empty`, `text`) is itself walked by the trailing loop; the
  result of walking such a wrapper whose children are already walked is
  computed by `assemble` and is inlined in the corresponding case below.
* For a `choice`/`group`/`interleave` with one child the source replaces the
  node by the child and the caller re-walks the replacement from scratch;
  `assemble` returns the already fully walked child, which is the same
  value. -/

inductive Elt where
  | txt (s : String)
  | elem (nm : String) (children : List Elt)

/-- `local` is `"choice"`, `"group"` or `"interleave"`: the three kinds
folded to binary form. -/
def isCGI (nm : String) : Bool :=
  nm == "choice" || nm == "group" || nm == "interleave"

/-- The `while (children.length > 2)` loop of the source: repeatedly wrap the
first two children in a fresh element of the same name.  `buildLeft nm x y zs`
is the single element that remains once the children `x :: y :: zs` have been
folded, with every wrapper walked (walking a binary `choice`/`group`/
`interleave` only walks its children, which are walked already). -/
def buildLeft (nm : String) : Elt → Elt → List Elt → Elt
  | x, y, [] => .elem nm [x, y]
  | x, y, z :: zs => buildLeft nm (.elem nm [x, y]) z zs

/-- Wrapping of all children in a single wrapper of kind `k` when there are
at least two of them (`makeElement(k, []); k.grabChildren(el)`), followed by
the walking of that wrapper: a wrapper with `≥ 2` children is folded to
binary form by the `choice|group|interleave` case. -/
def foldWrap (k : String) : List Elt → List Elt
  | a :: b :: rest => [buildLeft k a b rest]
  | ws => ws

/-- The per-node transformation of `walk`, applied to the walked children
`ws` of a node with local name `nm`:

* `choice|group|interleave`: one child — replaced by it; more than two —
  folded to binary form; otherwise unchanged.
* `element`: more than two children — all but the first wrapped in a walked
  `group`.
* `attribute`: exactly one child — a `<text/>` child is appended.
* `define|oneOrMore|list`: more than one child — wrapped in a walked `group`.
* `zeroOrMore`: becomes a `choice` of a `oneOrMore` of the (possibly
  group-wrapped) children and `<empty/>`.
* `optional`: becomes a `choice` of the (possibly group-wrapped) children and
  `<empty/>`.
* `mixed`: becomes an `interleave` of the (possibly group-wrapped) children
  and `<text/>`.
* `except`: more than one child — wrapped in a walked `choice`.
* anything else: unchanged. -/
def assemble (nm : String) (ws : List Elt) : Elt :=
  if isCGI nm then
    match ws with
    | [] => .elem nm []
    | [c] => c
    | a :: b :: rest => buildLeft nm a b rest
  else if nm == "element" then
    match ws with
    | c0 :: c1 :: c2 :: rest => .elem "element" [c0, buildLeft "group" c1 c2 rest]
    | _ => .elem "element" ws
  else if nm == "attribute" then
    match ws with
    | [c] => .elem "attribute" [c, .elem "text" []]
    | _ => .elem "attribute" ws
  else if nm == "define" || nm == "oneOrMore" || nm == "list" then
    .elem nm (foldWrap "group" ws)
  else if nm == "zeroOrMore" then
    .elem "choice" [.elem "oneOrMore" (foldWrap "group" ws), .elem "empty" []]
  else if nm == "optional" then
    .elem "choice" (foldWrap "group" ws ++ [.elem "empty" []])
  else if nm == "mixed" then
    .elem "interleave" (foldWrap "group" ws ++ [.elem "text" []])
  else if nm == "except" then
    .elem "except" (foldWrap "choice" ws)
  else .elem nm ws

mutual

/-- The full walk of one node: walk the children, then transform the node. -/
def walkE : Elt → Elt
  | .txt s => .txt s
  | .elem nm cs => assemble nm (walkL cs)

/-- The trailing loop of `walk`: every child is walked (and any replacement
re-walked, which `walkE` folds in); `Text` children are left untouched. -/
def walkL : List Elt → List Elt
  | [] => []
  | c :: cs => walkE c :: walkL cs

end

/-- `step10(el, check)`: walks the tree, re-walking from the root while the
root keeps being replaced — which `walkE` already folds in (a root
`choice|group|interleave` with a single child becomes its fully walked
child). -/
def step10 (e : Elt) : Elt := walkE e

mutual

/-- Every `choice`, `group` and `interleave` element of the tree has exactly
two children. -/
def binaryCGI : Elt → Bool
  | .txt _ => true
  | .elem nm cs => (!isCGI nm || cs.length == 2) && binaryCGIL cs

/-- `binaryCGI` on every member of a list. -/
def binaryCGIL : List Elt → Bool
  | [] => true
  | c :: cs => binaryCGI c && binaryCGIL cs

end

/-- The local names whose elements must have at least one child for the
claim's postcondition: the three binary kinds themselves plus `optional` and
`mixed`, which `walk` rewrites into `choice`/`interleave` nodes without
re-examining them. -/
def needsChild (nm : String) : Bool :=
  isCGI nm || nm == "optional" || nm == "mixed"

mutual

/-- Well-formedness of the input tree: every `choice`, `group`, `interleave`,
`optional` and `mixed` element has at least one child. -/
def wfChildren : Elt → Bool
  | .txt _ => true
  | .elem nm cs => (!needsChild nm || !cs.isEmpty) && wfChildrenL cs

/-- `wfChildren` on every member of a list. -/
def wfChildrenL : List Elt → Bool
  | [] => true
  | c :: cs => wfChildren c && wfChildrenL cs

end

/-! ## The mutable `Element` tree (`conversion/parser.ts`, embedded store)

Nodes are identities (`Nat`).  The mutable object graph becomes a store
mapping each node to its `parent` pointer and to its `children` array; the
mutator methods of `Element` become functions from store to store, with
`this` passed as the node identity `e`.  Calls whose source throws
(`indexOfChild` on a non-child, out-of-range indices) are embedded as
no-op/total variants; the theorems below carry the corresponding
preconditions, under which the embedded and the thrown-free behaviours
coincide. -/

structure Store where
  parent : Nat → Option Nat
  kids : Nat → List Nat

/-- Pointwise update of a parent map. -/
def upP (f : Nat → Option Nat) (c : Nat) (v : Option Nat) : Nat → Option Nat :=
  fun n => if n = c then v else f n

/-- Pointwise update of a children map. -/
def upK (f : Nat → List Nat) (e : Nat) (v : List Nat) : Nat → List Nat :=
  fun n => if n = e then v else f n

/-- `removeChild(child)`:
`this.children.splice(this.indexOfChild(child), 1)[0].parent = undefined` —
remove the first occurrence of `child` from `this.children` and clear its
parent. -/
def removeChild (s : Store) (e c : Nat) : Store :=
  { parent := upP s.parent c none,
    kids := upK s.kids e ((s.kids e).erase c) }

/-- The recurring prologue
`if (child.parent !== undefined) child.parent.removeChild(child)`. -/
def detach (s : Store) (c : Nat) : Store :=
  match s.parent c with
  | some p => removeChild s p c
  | none => s

/-- `appendChild(child)`: detach, set `child.parent = this`, push. -/
def appendChild (s : Store) (e c : Nat) : Store :=
  let s1 := detach s c
  { parent := upP s1.parent c (some e),
    kids := upK s1.kids e (s1.kids e ++ [c]) }

/-- `prependChild(child)`: detach, set `child.parent = this`, unshift. -/
def prependChild (s : Store) (e c : Nat) : Store :=
  let s1 := detach s c
  { parent := upP s1.parent c (some e),
    kids := upK s1.kids e (c :: s1.kids e) }

/-- The loop shared by `appendChildren` and `insertAt`: each argument is
detached and given `this` as parent, before any of them enters
`this.children`. -/
def detachAll (e : Nat) (s : Store) (cs : List Nat) : Store :=
  cs.foldl (fun st c =>
    let st1 := detach st c
    { st1 with parent := upP st1.parent c (some e) }) s

/-- `appendChildren(children)`: the detach loop, then
`this.children.push(...children)`. -/
def appendChildren (s : Store) (e : Nat) (cs : List Nat) : Store :=
  let s1 := detachAll e s cs
  { s1 with kids := upK s1.kids e (s1.kids e ++ cs) }

/-- `insertAt(index, toInsert)`: the detach loop, then
`this.children.splice(index, 0, ...toInsert)` (an index past the end appends
at the end, as `take` saturates). -/
def insertAt (s : Store) (e : Nat) (i : Nat) (cs : List Nat) : Store :=
  let s1 := detachAll e s cs
  { s1 with
    kids := upK s1.kids e ((s1.kids e).take i ++ cs ++ (s1.kids e).drop i) }

/-- `removeChildAt(i)`: `this.children.splice(i, 1)[0].parent = undefined`. -/
def removeChildAt (s : Store) (e : Nat) (i : Nat) : Store :=
  match (s.kids e)[i]? with
  | some c =>
    { parent := upP s.parent c none,
      kids := upK s.kids e ((s.kids e).eraseIdx i) }
  | none => s

/-- `replaceChildAt(i, replacement)`: capture `child = this.children[i]`,
detach the replacement from its current parent, write `this.children[i] =
replacement`, clear `child.parent`, set `replacement.parent = this` — in that
order. -/
def replaceChildAt (s : Store) (e : Nat) (i : Nat) (r : Nat) : Store :=
  match (s.kids e)[i]? with
  | none => s
  | some child =>
    let s1 := detach s r
    let s2 := { s1 with kids := upK s1.kids e ((s1.kids e).set i r) }
    let s3 := { s2 with parent := upP s2.parent child none }
    { s3 with parent := upP s3.parent r (some e) }

/-- `replaceChildWith(child, replacement)`:
`this.replaceChildAt(this.indexOfChild(child), replacement)`. -/
def replaceChildWith (s : Store) (e : Nat) (c r : Nat) : Store :=
  replaceChildAt s e ((s.kids e).indexOf c) r

/-- `empty()`: splice out all children, clearing their parents. -/
def emptyEl (s : Store) (e : Nat) : Store :=
  { parent := fun n => if n ∈ s.kids e then none else s.parent n,
    kids := upK s.kids e [] }

/-- `grabChildren(src)`: splice all children out of `src`, push them onto
`this.children`, set their parents to `this`. -/
def grabChildren (s : Store) (e : Nat) (src : Nat) : Store :=
  let moved := s.kids src
  let s1 := { s with kids := upK s.kids src [] }
  let s2 := { s1 with kids := upK s1.kids e (s1.kids e ++ moved) }
  { s2 with parent := fun n => if n ∈ moved then some e else s2.parent n }

/-- `replaceContent(children)`: `this.children.splice(0, len, ...children)`,
then clear the parents of the previous children and set the parents of the
new ones (in that order; the new children are *not* detached from their
current parents). -/
def replaceContent (s : Store) (e : Nat) (cs : List Nat) : Store :=
  let prev := s.kids e
  { kids := upK s.kids e cs,
    parent := fun n =>
      if n ∈ cs then some e else if n ∈ prev then none else s.parent n }

/-- The parent/child invariant of the element tree: a node with a parent
pointer occurs exactly once in that parent's children array, and every
occurrence in a children array is backed by the parent pointer. -/
def TreeInv (s : Store) : Prop :=
  (∀ c p, s.parent c = some p → (s.kids p).count c = 1) ∧
  (∀ p c, c ∈ s.kids p → s.parent c = some p)

/-! ## The grammar walker (`GrammarWalker.fireEvent`)

The walkers that can populate a frame are the `IWalker` implementations found
in the embedded sources: `RefWalker`, `NotAllowedWalker` and
`MisplacedElementWalker`.  In-place mutation of a walker by `fireEvent`
becomes returning the new walker, which replaces the old one in the frame;
none of the three embedded walkers mutates on a rejected event, so leaving
the frame untouched when no walker matched (as the source does) is the same
as storing the returned walkers. -/

inductive IW where
  | refW (w : RWState)
  | notAllowedW
  | misplacedW
deriving DecidableEq

/-- `InternalFireEventResult` as produced at the frame level. -/
structure IRes where
  matched : Bool
  errors : Option (List VError)
  refs : Option (List IW)
deriving DecidableEq

/-- `fireEvent` of the three embedded `IWalker`s.  `RefWalker` is embedded
above; `NotAllowedWalker.fireEvent` never matches; `MisplacedElementWalker`
rejects `enterStartTag`/`startTagAndAttributes` and accepts everything
else. -/
def iwFire (w : IW) (name : String) (ps : List String) : IRes × IW :=
  match w with
  | .refW r =>
    let res := rwFireEvent r name ps
    (⟨res.1.matched, res.1.errors, res.1.refs.map (List.map IW.refW)⟩,
     .refW res.2)
  | .notAllowedW => (⟨false, none, none⟩, .notAllowedW)
  | .misplacedW =>
    if name == "enterStartTag" || name == "startTagAndAttributes" then
      (⟨false, none, none⟩, .misplacedW)
    else (⟨true, none, none⟩, .misplacedW)

/-- The character class of ECMAScript `\s`: WhiteSpace (TAB, VT, FF, SP,
NBSP, ZWNBSP and the Unicode Zs category — OGHAM SPACE MARK, U+2000–U+200A,
NARROW NO-BREAK SPACE, MEDIUM MATHEMATICAL SPACE, IDEOGRAPHIC SPACE) plus
LineTerminator (LF, CR, LINE SEPARATOR, PARAGRAPH SEPARATOR). -/
def isJsWs (c : Char) : Bool :=
  let n := c.toNat
  n == 0x9 || n == 0xA || n == 0xB || n == 0xC || n == 0xD || n == 0x20 ||
  n == 0xA0 || n == 0x1680 ||
  (decide (0x2000 ≤ n) && decide (n ≤ 0x200A)) ||
  n == 0x2028 || n == 0x2029 || n == 0x202F || n == 0x205F ||
  n == 0x3000 || n == 0xFEFF

/-- JS `/\S/.test(text)` is false exactly when every character is in `\s`. -/
def wsOnly (s : String) : Bool :=
  s.toList.all isJsWs

/-- The state of a `GrammarWalker`: the stack of frames, the
misplaced-element depth, the `_swallowAttributeValue` flag, the suspended
whitespace slot and the `ignoreNextWs` flag.

The last two members stand in for machinery whose classes are not among the
sources.  Modelled from the spec: `inferred ns local` is the fresh walker for
the single matching entry of `elementDefinitions`, when there is exactly one
(spec §4.F: "If a single candidate exists, push a frame with a fresh walker
for that candidate"), and `contentWalker ns local` is the fresh walker of a
referenced element's content pattern (spec §4.F: "push a new frame
containing, for each `r`, a fresh walker of `r.element.pat`").  The claims
settled below never exercise either. -/
structure GW where
  frames : List (List IW)
  misplacedDepth : Nat
  swallowAttributeValue : Bool
  suspendedWs : Option String
  ignoreNextWs : Bool
  inferred : String → String → Option IW
  contentWalker : String → String → IW

/-- The fold of `_fireOnCurrentWalkers` over a frame: accumulated errors
(recorded only while no walker has matched yet), collected refs of matching
walkers, and the matching walkers themselves. -/
def fireFold (name : String) (ps : List String) (ws : List IW) :
    List VError × List IW × List IW :=
  ws.foldl (fun acc w =>
    let res := iwFire w name ps
    if res.1.matched then
      (acc.1, acc.2.1 ++ (res.1.refs.getD []), acc.2.2 ++ [res.2])
    else if acc.2.2.isEmpty then
      (acc.1 ++ (res.1.errors.getD []), acc.2.1, acc.2.2)
    else acc) ([], [], [])

/-- `_fireOnCurrentWalkers(name, params)`: the single-walker shortcut, or the
fold; when some walkers matched, the frame keeps exactly those. -/
def fireCurrent (g : GW) (name : String) (ps : List String) : IRes × GW :=
  let fs := g.frames
  let last := fs.length - 1
  let walkers := fs.getD last []
  match walkers with
  | [w] =>
    let res := iwFire w name ps
    (res.1, { g with frames := fs.set last [res.2] })
  | _ =>
    let folded := fireFold name ps walkers
    let errs := folded.1
    let refs := folded.2.1
    let remaining := folded.2.2
    if remaining.isEmpty then
      (⟨false, if errs.isEmpty then none else some errs, none⟩, g)
    else
      (⟨true, none, if refs.isEmpty then none else some refs⟩,
       { g with frames := fs.set last remaining })

/-- `_fireSuspendedWsOnCurrentWalkers()`: fire a `text` event carrying the
suspended whitespace on the top frame; keep the walkers that matched when
any did. -/
def fireSuspended (g : GW) : Bool × GW :=
  let fs := g.frames
  let last := fs.length - 1
  let walkers := fs.getD last []
  let w0 := g.suspendedWs.getD ""
  match walkers with
  | [w] =>
    let res := iwFire w "text" [w0]
    (res.1.matched, { g with frames := fs.set last [res.2] })
  | _ =>
    let fired := walkers.map (fun w => iwFire w "text" [w0])
    let remaining := (fired.filter (fun r => r.1.matched)).map (fun r => r.2)
    if remaining.isEmpty then (false, g)
    else (true, { g with frames := fs.set last remaining })

/-- `_processRefs(name, refs, params)`: push a frame of fresh walkers for the
contents of the referenced elements (one per ref).  For
`startTagAndAttributes` the source additionally feeds the attributes to each
fresh walker through `initWithAttributes`; that concerns only the element
walkers that `contentWalker` stands in for. -/
def processRefs (g : GW) (ps : List String) (refs : List IW) : GW :=
  let newWalkers := refs.map (fun _ => g.contentWalker (ps.getD 0 "") (ps.getD 1 ""))
  { g with frames := g.frames ++ [newWalkers] }

/-- `GrammarWalker.diagnose(name, params, wsMatch)` (the no-walker-matched
path of `fireEvent`). -/
def diagnose (g : GW) (name : String) (ps : List String) (wsMatch : Bool) :
    Except String (Option (List VError) × GW) :=
  if name == "enterStartTag" || name == "startTagAndAttributes" then
    if g.misplacedDepth > 0 then
      .ok (if wsMatch then none else some [.validationError "text not allowed here"],
           { g with misplacedDepth := g.misplacedDepth + 1,
                    frames := g.frames ++ [[.misplacedW]] })
    else
      let ns := ps.getD 0 ""
      let nm := ps.getD 1 ""
      let err := [VError.elementNameError
        (if name == "enterStartTag" then "tag not allowed here"
         else "tag not allowed here with these attributes") (.name ns nm)]
      match g.inferred ns nm with
      | some w => .ok (some err, { g with frames := g.frames ++ [[w]] })
      | none =>
        .ok (some err, { g with misplacedDepth := g.misplacedDepth + 1,
                                frames := g.frames ++ [[.misplacedW]] })
  else if name == "endTag" then
    .ok (some [.elementNameError "unexpected end tag"
                 (.name (ps.getD 0 "") (ps.getD 1 ""))], g)
  else if name == "attributeName" then
    .ok (some [.attributeNameError "attribute not allowed here"
                 (.name (ps.getD 0 "") (ps.getD 1 ""))],
         { g with swallowAttributeValue := true })
  else if name == "attributeNameAndValue" then
    .ok (some [.attributeNameError "attribute not allowed here"
                 (.name (ps.getD 0 "") (ps.getD 1 ""))], g)
  else if name == "attributeValue" then
    .ok (some [.validationError
      "unexpected attributeValue event; it is likely that fireEvent is incorrectly called"], g)
  else if name == "text" then
    .ok (some [.validationError "text not allowed here"], g)
  else .error ("unexpected event type in GrammarWalker\x27s fireEvent: " ++ name)

/-- `GrammarWalker.fireEvent(name, params)`.  Returned `false` is embedded as
`none`, a returned error array as `some`; a thrown `Error` as
`Except.error`. -/
def fireEvent (g0 : GW) (name : String) (ps : List String) :
    Except String (Option (List VError) × GW) :=
  -- switch (name): the whitespace-only "text" case returns early, leaving
  -- every flag but suspendedWs untouched
  if name == "text" && wsOnly (ps.getD 0 "") then
    if ps.getD 0 "" == "" then .error "firing empty text events makes no sense"
    else .ok (none, { g0 with suspendedWs := some (ps.getD 0 "") })
  else
    -- "endTag" fires the suspended whitespace and sets ignoreNextWs; a
    -- non-whitespace "text" leaves ignoreNextWs unchanged (its case breaks
    -- without reaching the default); every other event clears it
    let step1 :=
      if name == "endTag" then
        if !g0.ignoreNextWs && !g0.suspendedWs.isNone then
          let fs := fireSuspended g0
          (fs.1, { fs.2 with ignoreNextWs := true })
        else (true, { g0 with ignoreNextWs := true })
      else if name == "text" then (true, g0)
      else (true, { g0 with ignoreNextWs := false })
    let wsMatch := step1.1
    let g2 := { step1.2 with suspendedWs := none }
    if g2.swallowAttributeValue then
      -- swallow only one event
      let g3 := { g2 with swallowAttributeValue := false }
      if name == "attributeValue" then .ok (none, g3)
      else .ok (some [.validationError "attribute value required"], g3)
    else
      let fc := fireCurrent g2 name ps
      let ret := fc.1
      let g5 :=
        if name == "endTag" then
          let g4a := if fc.2.frames.length > 1 then
                       { fc.2 with frames := fc.2.frames.dropLast }
                     else fc.2
          if g4a.misplacedDepth > 0 then
            { g4a with misplacedDepth := g4a.misplacedDepth - 1 }
          else g4a
        else fc.2
      if ret.matched then
        match ret.refs with
        | some refs =>
          if refs.isEmpty then
            .ok (if wsMatch then none
                 else some [.validationError "text not allowed here"], g5)
          else .ok (none, processRefs g5 ps refs)
        | none =>
          .ok (if wsMatch then none
               else some [.validationError "text not allowed here"], g5)
      else
        match ret.errors with
        | some errs => .ok (some errs, g5)
        | none => diagnose g5 name ps wsMatch

/-! ## Concrete instances used by the theorems below -/

/-- `AnyName` whose `except` is `Choice(Name(u, a), Name(u, b))` — a legal
`anyName` with an `except` holding a choice of two names (the Relax NG
restrictions only exclude `anyName` descendants there). -/
def cexP1 : CN := .anyName (some (.nameChoice (.name "u" "a") (.name "u" "b")))

/-- `NsName(u)` with no `except`. -/
def cexQ1 : CN := .nsName "u" none

/-- What `cexP1.intersection(cexQ1)` evaluates to in the source. -/
def cexR1 : CN :=
  .nameChoice (.nsName "u" (some (.name "u" "a"))) (.nsName "u" (some (.name "u" "b")))

/-- `AnyName` whose `except` is `Choice(NsName(u, except Name(u, a)),
Name(u, a))` — a legal `anyName` `except` (an `nsName` with a
name-only `except`, and a name), which covers all of namespace `u`. -/
def cexP2 : CN :=
  .anyName (some (.nameChoice (.nsName "u" (some (.name "u" "a"))) (.name "u" "a")))

/-- The store of a two-node tree: node 0 is the root, node 1 its only
child. -/
def cexStore : Store :=
  { parent := fun n => if n = 1 then some 0 else none,
    kids := fun n => if n = 0 then [1] else [] }

/-- The empty store (no node has a parent or children). -/
def emptyStore : Store :=
  { parent := fun _ => none, kids := fun _ => [] }

/-- A grammar-walker state whose top frame holds a single fresh `RefWalker`
for an element named `{u}a`; no candidate inference, arbitrary content-walker
stand-in (neither is exercised). -/
def cexGW : GW :=
  { frames := [[.refW ⟨CN.name "u" "a", true, false⟩]],
    misplacedDepth := 0,
    swallowAttributeValue := false,
    suspendedWs := none,
    ignoreNextWs := false,
    inferred := fun _ _ => none,
    contentWalker := fun _ _ => .misplacedW }

/-- `cexGW` after its `RefWalker` has rejected an `attributeName` event: the
`_swallowAttributeValue` flag is set. -/
def cexGW2 : GW := { cexGW with swallowAttributeValue := true }

/-- `cexGW2` after a whitespace-only `text` event: the whitespace is
buffered, and the flag is still set. -/
def cexGW3 : GW := { cexGW2 with suspendedWs := some " " }

/-! ## Theorems -/

/-- Helper for C10: a wildcard match is a match, by structural recursion over
the pattern. -/
theorem wildcard_le_match (p : CN) :
    ∀ ns l, wildcardMatch p ns l = true → matchN p ns l = true := by
  match p with
  | .name pns pn => intro ns l h; simp [wildcardMatch] at h
  | .nameChoice a b =>
    intro ns l h
    simp only [wildcardMatch, Bool.or_eq_true] at h
    rcases h with h | h
    · simp only [matchN, Bool.or_eq_true]
      exact Or.inl (wildcard_le_match a ns l h)
    · simp only [matchN, Bool.or_eq_true]
      exact Or.inr (wildcard_le_match b ns l h)
  | .nsName pns ex => intro ns l h; simpa [wildcardMatch] using h
  | .anyName ex => intro ns l h; simpa [wildcardMatch] using h

/-- Claim C10: for every name pattern, `wildcardMatch(ns, local)` implies
`match(ns, local)`; and for a plain `Name` pattern `wildcardMatch` is always
`false`. -/
theorem claim10_wildcardMatch :
    (∀ (p : CN) (ns l : String),
        wildcardMatch p ns l = true → matchN p ns l = true) ∧
    (∀ pns pn ns l : String, wildcardMatch (.name pns pn) ns l = false) := by
  constructor
  · exact fun p => wildcard_le_match p
  · intro pns pn ns l; simp [wildcardMatch]

/-- Witness for C10 at a concrete wildcard pattern and name. -/
theorem claim10_wildcardMatch_witness :
    matchN (.nsName "u" none) "u" "x" = true :=
  claim10_wildcardMatch.1 (.nsName "u" none) "u" "x" (by decide)

/-- Claim C9: on a missing definition, `Ref._prepare` throws the literal text
`"$\x7bthis.name\x7d cannot be resolved"` (the source uses plain quotes, so
the template placeholder is not expanded), which differs from the expanded
message the spec intends; on a present definition it resolves to that
`Define`. -/
theorem claim9_prepare_eval :
    refPrepare "foo" [] = .error "$\x7bthis.name\x7d cannot be resolved" ∧
    ("$\x7bthis.name\x7d cannot be resolved" == "foo cannot be resolved") = false ∧
    refPrepare "foo" [("foo", ⟨"foo"⟩)] = .ok ⟨"foo"⟩ :=
  ⟨rfl, by decide, rfl⟩

/-- Claim C4: a `RefWalker` with `canEnd = false` receiving `enterStartTag`
or `startTagAndAttributes` whose `(ns, local)` parameters are matched by the
referenced element's name class returns `matched = true` with `refs` holding
itself and sets `canEnd` to `true`; every other `fireEvent` returns
`matched = false` without changing the walker; `end()` returns an
`ElementNameError "tag required"` exactly when `canEnd` is still `false`. -/
theorem claim4_refWalker :
    (∀ (w : RWState) (name : String) (ps : List String),
        w.canEnd = false →
        (name = "enterStartTag" ∨ name = "startTagAndAttributes") →
        matchN w.startName (ps.getD 0 "") (ps.getD 1 "") = true →
        rwFireEvent w name ps =
          (⟨true, none, some [{ w with canEnd := true }]⟩,
           { w with canEnd := true })) ∧
    (∀ (w : RWState) (name : String) (ps : List String),
        (w.canEnd = true ∨
         (name ≠ "enterStartTag" ∧ name ≠ "startTagAndAttributes") ∨
         matchN w.startName (ps.getD 0 "") (ps.getD 1 "") = false) →
        rwFireEvent w name ps = (⟨false, none, none⟩, w)) ∧
    (∀ w : RWState, w.canEnd = false →
        rwEnd w = some [.elementNameError "tag required" w.startName]) ∧
    (∀ w : RWState, w.canEnd = true → rwEnd w = none) := by
  refine ⟨?_, ?_, ?_, ?_⟩
  · intro w name ps hce hname hm
    simp only [List.getD, List.get?_eq_getElem?] at hm
    rcases hname with h | h <;> subst h <;> simp [rwFireEvent, hce, hm]
  · intro w name ps hrej
    rcases hrej with h | ⟨h1, h2⟩ | h
    · simp [rwFireEvent, h]
    · have b1 : (name == "enterStartTag") = false := by
        simpa using h1
      have b2 : (name == "startTagAndAttributes") = false := by
        simpa using h2
      simp [rwFireEvent, b1, b2]
    · simp only [List.getD, List.get?_eq_getElem?] at h
      simp [rwFireEvent, h]
  · intro w hce; simp [rwEnd, hce]
  · intro w hce; simp [rwEnd, hce]

/-- Witness for C4 at a concrete walker: acceptance, rejection after
acceptance, and both `end()` outcomes. -/
theorem claim4_refWalker_witness :
    rwFireEvent ⟨CN.name "u" "a", true, false⟩ "enterStartTag" ["u", "a"] =
      (⟨true, none, some [⟨CN.name "u" "a", true, true⟩]⟩,
       ⟨CN.name "u" "a", true, true⟩) ∧
    rwFireEvent ⟨CN.name "u" "a", true, true⟩ "enterStartTag" ["u", "a"] =
      (⟨false, none, none⟩, ⟨CN.name "u" "a", true, true⟩) ∧
    rwEnd ⟨CN.name "u" "a", true, false⟩ =
      some [.elementNameError "tag required" (CN.name "u" "a")] ∧
    rwEnd ⟨CN.name "u" "a", true, true⟩ = none :=
  ⟨claim4_refWalker.1 _ "enterStartTag" ["u", "a"] rfl (Or.inl rfl) (by decide),
   claim4_refWalker.2.1 _ "enterStartTag" ["u", "a"] (Or.inl rfl),
   claim4_refWalker.2.2.1 _ rfl,
   claim4_refWalker.2.2.2 _ rfl⟩

/-- Claim C5, counterexample: a `Ref` to an element whose content is
`notAllowed`.  `Ref.hasEmptyPattern()` is unconditionally `false`, but
`Ref.newWalker()` returns the `NotAllowed` singleton walker, whose `canEnd`
is `true` — so `hasEmptyPattern() ⇔ newWalker().canEnd` fails, and the fresh
walker is not a `RefWalker` with `canEnd = false` as the claim states. -/
theorem claim5_counterexample :
    hasEmptyPattern (.refP "d" ⟨CN.name "u" "a", true⟩) = false ∧
    (newWalker (.refP "d" ⟨CN.name "u" "a", true⟩)).canEnd = true :=
  ⟨rfl, rfl⟩

/-- Claim C5 (amended): the equivalence
`hasEmptyPattern() = newWalker().canEnd` holds for every `Ref` whose target
element is not `notAllowed` (both sides are `false`); for the `NotAllowed`
pattern and for a `Ref` to a `notAllowed` element the fresh walker is the
`NotAllowed` singleton with `canEnd = true` while `hasEmptyPattern()` is
`false`, so the equivalence fails exactly there. -/
theorem claim5_hasEmptyPattern :
    (∀ (rn : String) (t : ElementP), t.notAllowed = false →
        hasEmptyPattern (.refP rn t) = (newWalker (.refP rn t)).canEnd) ∧
    hasEmptyPattern .notAllowedP = false ∧
    (newWalker .notAllowedP).canEnd = true ∧
    (∀ (rn : String) (t : ElementP), t.notAllowed = true →
        hasEmptyPattern (.refP rn t) = false ∧
        (newWalker (.refP rn t)).canEnd = true) := by
  refine ⟨?_, rfl, rfl, ?_⟩
  · intro rn t h; simp [hasEmptyPattern, newWalker, h, PWalker.canEnd]
  · intro rn t h; simp [hasEmptyPattern, newWalker, h, PWalker.canEnd]

/-- Witness for C5 at concrete targets. -/
theorem claim5_hasEmptyPattern_witness :
    hasEmptyPattern (.refP "d" ⟨CN.name "u" "a", false⟩) =
      (newWalker (.refP "d" ⟨CN.name "u" "a", false⟩)).canEnd ∧
    (hasEmptyPattern (.refP "e" ⟨CN.name "u" "b", true⟩) = false ∧
     (newWalker (.refP "e" ⟨CN.name "u" "b", true⟩)).canEnd = true) :=
  ⟨claim5_hasEmptyPattern.1 "d" ⟨CN.name "u" "a", false⟩ rfl,
   claim5_hasEmptyPattern.2.2.2 "e" ⟨CN.name "u" "b", true⟩ rfl⟩

/-- Claim C1, evaluation at the failing input: for
`p = AnyName(except = Choice(Name(u,a), Name(u,b)))` and `q = NsName(u)`
(both satisfying the Relax NG restrictions on `except` contents),
`p.intersection(q)` is `Choice(NsName(u, except a), NsName(u, except b))`,
which matches `(u, b)` although `p` does not match `(u, b)` — the
distribution `x − (a ∪ b) = (x − a) ∪ (x − b)` used by `NsName.subtract` is
not a set difference, so `intersection` is not the set intersection its
documentation promises. -/
theorem claim1_intersection_eval :
    inter cexP1 cexQ1 = .ok (some cexR1) ∧
    matchN cexR1 "u" "b" = true ∧
    matchN cexP1 "u" "b" = false ∧
    matchN cexQ1 "u" "b" = true := by
  refine ⟨?_, by decide, by decide, by decide⟩
  simp [cexP1, cexQ1, cexR1, inter, subtract, orChoice, matchN, exc_bind_ok]

/-- Claim C2, evaluation at the failing input: for
`p = AnyName(except = Choice(NsName(u, except Name(u,a)), Name(u,a)))` and
`q = NsName(u)` (both satisfying the Relax NG restrictions on `except`
contents), `p.intersects(q)` returns `true`, yet no expanded name is matched
by both: `p`'s `except` covers all of namespace `u` and `q` matches only
names in `u`. -/
theorem claim2_intersects_eval :
    intersects cexP2 cexQ1 = .ok true ∧
    (∀ ns l : String, (matchN cexP2 ns l && matchN cexQ1 ns l) = false) := by
  constructor
  · simp [cexP2, cexQ1, intersects, inter, subtract, orChoice, matchN,
          toArray, makeTree, pairsToNames, exc_bind_ok]
  · intro ns l
    by_cases h2 : "u" = ns
    · subst h2
      by_cases h : l = "a" <;> simp [cexP2, cexQ1, matchN, h]
    · simp [cexP2, cexQ1, matchN, h2]

/-- Claim C6: the case analysis of `NsName.subtract`.  With
`this = NsName(tns, tex)`:

1. it distributes over `NameChoice`, dropping leaves that become the empty
   set (`orChoice`);
2. it is defined only for `Name`, `NsName`, and `NameChoice`s of those —
   any other leaf raises;
3. for a `Name` operand in the same namespace the result is
   `NsName(tns, except ∪ {name})`;
4. for a `Name` operand in another namespace the result is `this` unchanged;
5. for an `NsName` operand in the same namespace with no `except` the result
   is the empty set;
6. for an `NsName` operand with an `except` when `this` has none the result
   is the operand's `except`;
7. when both have `except`s the result is the set difference
   `other.except \ this.except` (that direction), the empty set when the
   difference is empty. -/
theorem claim6_subtract :
    (∀ (tns : String) (tex : Option CN) (a b : CN),
        subtract tns tex (.nameChoice a b) = do
          let ra ← subtract tns tex a
          let rb ← subtract tns tex b
          .ok (orChoice ra rb)) ∧
    (∀ (tns : String) (tex ex : Option CN),
        subtract tns tex (.anyName ex) = .error "child is not Name or NsName") ∧
    (∀ (tns : String) (tex : Option CN) (onm : String),
        subtract tns tex (.name tns onm) =
          .ok (some (.nsName tns (some (match tex with
            | none => .name tns onm
            | some e => .nameChoice e (.name tns onm)))))) ∧
    (∀ (tns : String) (tex : Option CN) (ons onm : String), tns ≠ ons →
        subtract tns tex (.name ons onm) = .ok (some (.nsName tns tex))) ∧
    (∀ (tns : String) (tex : Option CN),
        subtract tns tex (.nsName tns none) = .ok none) ∧
    (∀ (tns : String) (oe : CN),
        subtract tns none (.nsName tns (some oe)) = .ok (some oe)) ∧
    (∀ (tns : String) (te oe : CN) (l1 l2 : List (String × String)),
        toArray te = some l1 → toArray oe = some l2 →
        subtract tns (some te) (.nsName tns (some oe)) =
          (let result := l2.filter
             (fun nm => !(l1.any (fun tn => nm.1 == tn.1 && nm.2 == tn.2)))
           if result.isEmpty then .ok none
           else do
             let t ← makeTree (pairsToNames result)
             .ok (some t))) := by
  refine ⟨?_, ?_, ?_, ?_, ?_, ?_, ?_⟩
  · intro tns tex a b; simp [subtract]
  · intro tns tex ex; simp [subtract]
  · intro tns tex onm; simp [subtract]
  · intro tns tex ons onm h; simp [subtract, h]
  · intro tns tex; simp [subtract]
  · intro tns oe; simp [subtract]
  · intro tns te oe l1 l2 h1 h2; simp [subtract, h1, h2]

/-- Witness for C6: the hypothesised parts applied at concrete inputs. -/
theorem claim6_subtract_witness :
    subtract "u" none (.name "v" "x") = .ok (some (.nsName "u" none)) ∧
    subtract "u" (some (.name "u" "a")) (.nsName "u" (some (.nameChoice (.name "u" "a") (.name "u" "b")))) =
      .ok (some (.name "u" "b")) := by
  constructor
  · exact claim6_subtract.2.2.2.1 "u" none "v" "x" (by decide)
  · have h := claim6_subtract.2.2.2.2.2.2 "u" (.name "u" "a")
      (.nameChoice (.name "u" "a") (.name "u" "b"))
      [("u", "a")] [("u", "a"), ("u", "b")] (by decide) (by decide)
    rw [h]
    rfl

/-- Helper for C3: the length of a walked child list. -/
theorem walkL_length (l : List Elt) : (walkL l).length = l.length := by
  induction l with
  | nil => rfl
  | cons c cs ih => simp [walkL, ih]

/-- Helper for C3: `binaryCGIL` from pointwise `binaryCGI` of the walked
members. -/
theorem binaryCGIL_walkL (l : List Elt)
    (h : ∀ c ∈ l, binaryCGI (walkE c) = true) :
    binaryCGIL (walkL l) = true := by
  induction l with
  | nil => rfl
  | cons c cs ih =>
    simp only [walkL, binaryCGIL, Bool.and_eq_true]
    exact ⟨h c (by simp), ih (fun d hd => h d (by simp [hd]))⟩

/-- Helper for C3: members of a `wfChildrenL` list are `wfChildren`. -/
theorem wfChildrenL_mem (l : List Elt) (h : wfChildrenL l = true) :
    ∀ c ∈ l, wfChildren c = true := by
  induction l with
  | nil => intro c hc; simp at hc
  | cons c cs ih =>
    simp only [wfChildrenL, Bool.and_eq_true] at h
    intro d hd
    rcases List.mem_cons.mp hd with h1 | h1
    · exact h1 ▸ h.1
    · exact ih h.2 d h1

/-- Helper for C3: the left fold produces only binary nodes of kind `k`. -/
theorem buildLeft_binary (k : String) (_hk : isCGI k = true) :
    ∀ (zs : List Elt) (x y : Elt), binaryCGI x = true → binaryCGI y = true →
      binaryCGIL zs = true → binaryCGI (buildLeft k x y zs) = true := by
  intro zs
  induction zs with
  | nil =>
    intro x y hx hy _
    simp [buildLeft, binaryCGI, binaryCGIL, hx, hy]
  | cons z zs ih =>
    intro x y hx hy hzs
    simp only [binaryCGIL, Bool.and_eq_true] at hzs
    simp only [buildLeft]
    exact ih (.elem k [x, y]) z
      (by simp [binaryCGI, binaryCGIL, hx, hy]) hzs.1 hzs.2

/-- Helper for C3: `foldWrap` preserves `binaryCGIL` for a binary kind. -/
theorem foldWrap_binary (k : String) (hk : isCGI k = true) (ws : List Elt)
    (h : binaryCGIL ws = true) : binaryCGIL (foldWrap k ws) = true := by
  match ws with
  | [] => exact h
  | [c] => exact h
  | a :: b :: rest =>
    simp only [binaryCGIL, Bool.and_eq_true] at h
    simp only [foldWrap, binaryCGIL, Bool.and_eq_true]
    exact ⟨buildLeft_binary k hk rest a b h.1 h.2.1 h.2.2, trivial⟩

/-- Helper for C3: `foldWrap` of a nonempty list is a single element. -/
theorem foldWrap_length (k : String) (ws : List Elt) (h : ws ≠ []) :
    (foldWrap k ws).length = 1 := by
  match ws with
  | [] => exact absurd rfl h
  | [c] => rfl
  | a :: b :: rest => rfl


/-- Helper for C3: `binaryCGIL` over an append. -/
theorem binaryCGIL_append (l1 l2 : List Elt) :
    binaryCGIL (l1 ++ l2) = (binaryCGIL l1 && binaryCGIL l2) := by
  induction l1 with
  | nil => simp [binaryCGIL]
  | cons c cs ih => simp [binaryCGIL, ih, Bool.and_assoc]

/-- Helper for C3: the per-node regrouping yields only binary
`choice`/`group`/`interleave` nodes, provided the walked children are all
binary and the node kinds that need a child have one. -/
theorem assemble_binary (nm : String) (ws : List Elt)
    (h1 : needsChild nm = true → ws ≠ [])
    (h2 : binaryCGIL ws = true) :
    binaryCGI (assemble nm ws) = true := by
  have hGroup : isCGI "group" = true := by decide
  have hChoice : isCGI "choice" = true := by decide
  by_cases hc : isCGI nm = true
  · -- choice | group | interleave
    simp only [assemble, hc, if_true]
    match ws with
    | [] =>
      exact absurd rfl (h1 (by simp [needsChild, hc]))
    | [c] =>
      simp only [binaryCGIL, Bool.and_eq_true] at h2
      exact h2.1
    | a :: b :: rest =>
      simp only [binaryCGIL, Bool.and_eq_true] at h2
      exact buildLeft_binary nm hc rest a b h2.1 h2.2.1 h2.2.2
  · have hcf : isCGI nm = false := by simpa using hc
    simp only [assemble, hcf, Bool.false_eq_true, if_false]
    by_cases he : nm = "element"
    · subst he
      simp only [beq_self_eq_true, if_true]
      match ws with
      | [] => simp [binaryCGI, binaryCGIL, isCGI]
      | [c0] =>
        simp only [binaryCGIL, Bool.and_eq_true] at h2
        simp [binaryCGI, binaryCGIL, isCGI, h2.1]
      | [c0, c1] =>
        simp only [binaryCGIL, Bool.and_eq_true] at h2
        simp [binaryCGI, binaryCGIL, isCGI, h2.1, h2.2.1]
      | c0 :: c1 :: c2 :: rest =>
        simp only [binaryCGIL, Bool.and_eq_true] at h2
        have hb := buildLeft_binary "group" hGroup rest c1 c2 h2.2.1 h2.2.2.1 h2.2.2.2
        simp [binaryCGI, binaryCGIL, isCGI, h2.1, hb]
    · have he' : (nm == "element") = false := by simpa using he
      simp only [he', Bool.false_eq_true, if_false]
      by_cases ha : nm = "attribute"
      · subst ha
        simp only [beq_self_eq_true, if_true]
        match ws with
        | [] => simp [binaryCGI, binaryCGIL, isCGI]
        | [c0] =>
          simp only [binaryCGIL, Bool.and_eq_true] at h2
          simp [binaryCGI, binaryCGIL, isCGI, h2.1]
        | c0 :: c1 :: rest =>
          simp [binaryCGI, isCGI, h2]
      · have ha' : (nm == "attribute") = false := by simpa using ha
        simp only [ha', Bool.false_eq_true, if_false]
        by_cases hd : (nm == "define" || nm == "oneOrMore" || nm == "list") = true
        · simp only [hd, if_true]
          simp [binaryCGI, hcf, foldWrap_binary "group" hGroup ws h2]
        · simp only [hd, Bool.false_eq_true, if_false]
          by_cases hz : nm = "zeroOrMore"
          · subst hz
            simp only [beq_self_eq_true, if_true]
            simp [binaryCGI, binaryCGIL, isCGI,
                  foldWrap_binary "group" hGroup ws h2]
          · have hz' : (nm == "zeroOrMore") = false := by simpa using hz
            simp only [hz', Bool.false_eq_true, if_false]
            by_cases ho : nm = "optional"
            · subst ho
              have hne : ws ≠ [] := h1 (by decide)
              simp only [beq_self_eq_true, if_true]
              simp only [binaryCGI, binaryCGIL_append,
                         foldWrap_binary "group" hGroup ws h2,
                         binaryCGIL, List.length_append,
                         foldWrap_length "group" ws hne]
              simp [isCGI, binaryCGIL]
            · have ho' : (nm == "optional") = false := by simpa using ho
              simp only [ho', Bool.false_eq_true, if_false]
              by_cases hm : nm = "mixed"
              · subst hm
                have hne : ws ≠ [] := h1 (by decide)
                simp only [beq_self_eq_true, if_true]
                simp only [binaryCGI, binaryCGIL_append,
                           foldWrap_binary "group" hGroup ws h2,
                           binaryCGIL, List.length_append,
                           foldWrap_length "group" ws hne]
                simp [isCGI, binaryCGIL]
              · have hm' : (nm == "mixed") = false := by simpa using hm
                simp only [hm', Bool.false_eq_true, if_false]
                by_cases hx : nm = "except"
                · subst hx
                  simp only [beq_self_eq_true, if_true]
                  simp [binaryCGI, isCGI,
                        foldWrap_binary "choice" hChoice ws h2]
                · have hx' : (nm == "except") = false := by simpa using hx
                  simp only [hx', Bool.false_eq_true, if_false]
                  simp [binaryCGI, hcf, h2]

/-- Helper for C3: the main induction, on a size bound. -/
theorem walk_binary_aux (n : Nat) :
    ∀ e : Elt, sizeOf e ≤ n → wfChildren e = true →
      binaryCGI (walkE e) = true := by
  induction n with
  | zero =>
    intro e hsz _
    exfalso
    cases e <;> simp at hsz
  | succ n ih =>
    intro e hsz hwf
    match e with
    | .txt s => simp [walkE, binaryCGI]
    | .elem nm cs =>
      have hwf' : (!needsChild nm || !cs.isEmpty) = true ∧
          wfChildrenL cs = true := by
        simpa only [wfChildren, Bool.and_eq_true] using hwf
      have hpt : ∀ c ∈ cs, binaryCGI (walkE c) = true := by
        intro c hc
        have h1 := List.sizeOf_lt_of_mem hc
        have h2 : sizeOf (Elt.elem nm cs) = 1 + sizeOf nm + sizeOf cs := by
          simp
        have hle : sizeOf c ≤ n := by
          simp at hsz
          omega
        exact ih c hle (wfChildrenL_mem cs hwf'.2 c hc)
      have hw : walkE (Elt.elem nm cs) = assemble nm (walkL cs) := by
        simp [walkE]
      rw [hw]
      apply assemble_binary
      · intro hnc
        have hbe : (!cs.isEmpty) = true := by
          rcases Bool.or_eq_true _ _ |>.mp hwf'.1 with h | h
          · rw [hnc] at h; simp at h
          · exact h
        intro hEq
        have : cs.length = 0 := by
          have := walkL_length cs
          rw [hEq] at this
          simpa using this.symm
        rw [List.isEmpty_iff_length_eq_zero.mpr this] at hbe
        simp at hbe
      · exact binaryCGIL_walkL cs hpt

/-- Helper for C3: walking a well-formed tree yields only binary
`choice`/`group`/`interleave` nodes. -/
theorem walk_binary (e : Elt) (h : wfChildren e = true) :
    binaryCGI (walkE e) = true :=
  walk_binary_aux (sizeOf e) e le_rfl h

/-- Claim C3, counterexample: on a `choice` element with no children (the
claim is stated for every element tree), `step10` returns the tree unchanged,
and it contains a `choice` with zero, not two, children. -/
theorem claim3_counterexample :
    step10 (.elem "choice" []) = .elem "choice" [] ∧
    binaryCGI (.elem "choice" []) = false :=
  ⟨rfl, by decide⟩

/-- Claim C3 (amended): provided every `choice`, `group`, `interleave`,
`optional` and `mixed` element of the input has at least one child, `step10`
replaces every one-child `choice`/`group`/`interleave` by its (fully
rewritten) child, left-folds longer ones into nested binary elements of the
same local name, and in the returned tree every remaining `choice`, `group`
and `interleave` element has exactly two children. -/
theorem claim3_step10 :
    (∀ (nm : String) (c : Elt), isCGI nm = true →
        step10 (.elem nm [c]) = step10 c) ∧
    (∀ (nm : String) (a b : Elt) (rest : List Elt), isCGI nm = true →
        step10 (.elem nm (a :: b :: rest)) =
          buildLeft nm (walkE a) (walkE b) (walkL rest)) ∧
    (∀ e : Elt, wfChildren e = true → binaryCGI (step10 e) = true) := by
  refine ⟨?_, ?_, ?_⟩
  · intro nm c h; simp [step10, walkE, walkL, assemble, h]
  · intro nm a b rest h; simp [step10, walkE, walkL, assemble, h]
  · exact fun e h => walk_binary e h

/-- Witness for C3: the three parts at concrete trees. -/
theorem claim3_step10_witness :
    step10 (.elem "choice" [.elem "empty" []]) = step10 (.elem "empty" []) ∧
    step10 (.elem "group" [.elem "empty" [], .elem "text" [], .elem "empty" []]) =
      buildLeft "group" (walkE (.elem "empty" [])) (walkE (.elem "text" []))
        (walkL [.elem "empty" []]) ∧
    binaryCGI (step10 (.elem "element"
      [.elem "name" [],
       .elem "optional" [.elem "text" []],
       .elem "zeroOrMore" [.elem "empty" []],
       .elem "choice" [.elem "text" [], .elem "text" [], .elem "text" []]])) = true :=
  ⟨claim3_step10.1 "choice" (.elem "empty" []) (by decide),
   claim3_step10.2.1 "group" (.elem "empty" []) (.elem "text" [])
     [.elem "empty" []] (by decide),
   claim3_step10.2.2 _ (by decide)⟩

/-- Helper for C7: the facts about a single node needed to reason about
`detach`; they follow from the invariant, and also hold for the non-pending
nodes of the intermediate states of the detach loops. -/
def NodeOK (s : Store) (c : Nat) : Prop :=
  (∀ p, s.parent c = some p → (s.kids p).count c = 1) ∧
  (∀ p, c ∈ s.kids p → s.parent c = some p)

theorem nodeOK_of_inv {s : Store} (h : TreeInv s) (c : Nat) : NodeOK s c :=
  ⟨fun p hp => h.1 c p hp, fun p hm => h.2 p c hm⟩

theorem detach_parent_self (s : Store) (c : Nat) :
    (detach s c).parent c = none := by
  unfold detach
  cases hp : s.parent c with
  | none => exact hp
  | some p0 => simp [removeChild, upP]

theorem detach_parent_ne (s : Store) (c x : Nat) (hx : x ≠ c) :
    (detach s c).parent x = s.parent x := by
  unfold detach
  cases hp : s.parent c with
  | none => rfl
  | some p0 => simp [removeChild, upP, hx]

theorem detach_kids {s : Store} {c : Nat} (h : NodeOK s c) (p : Nat) :
    (detach s c).kids p = (s.kids p).erase c := by
  unfold detach
  cases hp : s.parent c with
  | none =>
    refine (List.erase_of_not_mem ?_).symm
    intro hm
    rw [h.2 p hm] at hp
    cases hp
  | some p0 =>
    simp only [removeChild, upK]
    by_cases hpe : p = p0
    · subst hpe; simp
    · simp only [hpe, if_false]
      refine (List.erase_of_not_mem ?_).symm
      intro hm
      rw [h.2 p hm] at hp
      exact hpe (Option.some.inj hp)

theorem detach_not_mem {s : Store} {c : Nat} (h : NodeOK s c) (p : Nat) :
    c ∉ (detach s c).kids p := by
  rw [detach_kids h p]
  by_cases hm : c ∈ s.kids p
  · have hp := h.2 p hm
    have h1 := h.1 p hp
    have hz : List.count c ((s.kids p).erase c) = 0 := by
      rw [List.count_erase_self, h1]
    exact List.count_eq_zero.mp hz
  · rw [List.erase_of_not_mem hm]; exact hm

theorem detach_inv {s : Store} (h : TreeInv s) (c : Nat) :
    TreeInv (detach s c) := by
  have hok := nodeOK_of_inv h c
  constructor
  · intro x p hx
    by_cases hxc : x = c
    · subst hxc
      rw [detach_parent_self] at hx
      cases hx
    · rw [detach_parent_ne s c x hxc] at hx
      rw [detach_kids hok p, List.count_erase_of_ne hxc]
      exact h.1 x p hx
  · intro p x hx
    by_cases hxc : x = c
    · subst hxc
      exact absurd hx (detach_not_mem hok p)
    · rw [detach_kids hok p] at hx
      rw [detach_parent_ne s c x hxc]
      exact h.2 p x (List.mem_of_mem_erase hx)

/-- Helper for C7: `removeChild` preservation.  When the argument is a child
(the case in which the source's `indexOfChild` does not throw), `removeChild`
coincides with `detach`. -/
theorem removeChild_inv {s : Store} (h : TreeInv s) {e c : Nat}
    (hc : s.parent c = some e) : TreeInv (removeChild s e c) := by
  have : removeChild s e c = detach s c := by
    unfold detach
    rw [hc]
  rw [this]
  exact detach_inv h c


/-- Helper for C7: the components of `appendChild`. -/
theorem appendChild_parent (s : Store) (e c x : Nat) :
    (appendChild s e c).parent x =
      if x = c then some e else (detach s c).parent x := by
  simp [appendChild, upP]

theorem appendChild_kids (s : Store) (e c p : Nat) :
    (appendChild s e c).kids p =
      if p = e then (detach s c).kids e ++ [c] else (detach s c).kids p := by
  simp [appendChild, upK]

/-- Helper for C7: `appendChild` preservation. -/
theorem appendChild_inv {s : Store} (h : TreeInv s) (e c : Nat) :
    TreeInv (appendChild s e c) := by
  have hok := nodeOK_of_inv h c
  have h1 := detach_inv h c
  have hns := detach_not_mem hok
  constructor
  · intro x p hx
    rw [appendChild_parent] at hx
    rw [appendChild_kids]
    by_cases hxc : x = c
    · rw [if_pos hxc] at hx
      have hpe : p = e := (Option.some.inj hx).symm
      rw [if_pos hpe, hxc, List.count_append,
          List.count_eq_zero.mpr (hns e), List.count_singleton]
      simp
    · rw [if_neg hxc] at hx
      by_cases hpe : p = e
      · rw [if_pos hpe, List.count_append, List.count_singleton]
        rw [hpe] at hx
        rw [h1.1 x e hx]
        simp [Ne.symm hxc]
      · rw [if_neg hpe]
        exact h1.1 x p hx
  · intro p x hx
    rw [appendChild_kids] at hx
    rw [appendChild_parent]
    by_cases hpe : p = e
    · rw [if_pos hpe] at hx
      rcases List.mem_append.mp hx with hx2 | hx2
      · have hxc : x ≠ c := by
          intro hh
          rw [hh] at hx2
          exact hns e hx2
        rw [if_neg hxc, hpe]
        exact h1.2 e x hx2
      · rw [if_pos (List.mem_singleton.mp hx2), hpe]
    · rw [if_neg hpe] at hx
      have hxc : x ≠ c := by
        intro hh
        rw [hh] at hx
        exact hns p hx
      rw [if_neg hxc]
      exact h1.2 p x hx

/-- Helper for C7: the components of `prependChild`. -/
theorem prependChild_parent (s : Store) (e c x : Nat) :
    (prependChild s e c).parent x =
      if x = c then some e else (detach s c).parent x := by
  simp [prependChild, upP]

theorem prependChild_kids (s : Store) (e c p : Nat) :
    (prependChild s e c).kids p =
      if p = e then c :: (detach s c).kids e else (detach s c).kids p := by
  simp [prependChild, upK]

/-- Helper for C7: `prependChild` preservation. -/
theorem prependChild_inv {s : Store} (h : TreeInv s) (e c : Nat) :
    TreeInv (prependChild s e c) := by
  have hok := nodeOK_of_inv h c
  have h1 := detach_inv h c
  have hns := detach_not_mem hok
  constructor
  · intro x p hx
    rw [prependChild_parent] at hx
    rw [prependChild_kids]
    by_cases hxc : x = c
    · rw [if_pos hxc] at hx
      have hpe : p = e := (Option.some.inj hx).symm
      rw [if_pos hpe, hxc, List.count_cons,
          List.count_eq_zero.mpr (hns e)]
      simp
    · rw [if_neg hxc] at hx
      by_cases hpe : p = e
      · rw [if_pos hpe, List.count_cons]
        rw [hpe] at hx
        rw [h1.1 x e hx]
        simp [Ne.symm hxc]
      · rw [if_neg hpe]
        exact h1.1 x p hx
  · intro p x hx
    rw [prependChild_kids] at hx
    rw [prependChild_parent]
    by_cases hpe : p = e
    · rw [if_pos hpe] at hx
      rcases List.mem_cons.mp hx with hx2 | hx2
      · rw [if_pos hx2, hpe]
      · have hxc : x ≠ c := by
          intro hh
          rw [hh] at hx2
          exact hns e hx2
        rw [if_neg hxc, hpe]
        exact h1.2 e x hx2
    · rw [if_neg hpe] at hx
      have hxc : x ≠ c := by
        intro hh
        rw [hh] at hx
        exact hns p hx
      rw [if_neg hxc]
      exact h1.2 p x hx

/-- Helper for C7: the intermediate states of the detach loop of
`appendChildren`/`insertAt`.  The pending nodes have been detached and given
`e` as parent but are in no children array yet; everything else still
satisfies the invariant. -/
def MidInv (e : Nat) (s : Store) (pend : Nat → Prop) : Prop :=
  (∀ c, pend c → s.parent c = some e) ∧
  (∀ c, pend c → ∀ p, c ∉ s.kids p) ∧
  (∀ x p, ¬pend x → s.parent x = some p → (s.kids p).count x = 1) ∧
  (∀ p x, x ∈ s.kids p → s.parent x = some p)

theorem midInv_congr {e : Nat} {s : Store} {P Q : Nat → Prop}
    (hiff : ∀ x, P x ↔ Q x) (hm : MidInv e s P) : MidInv e s Q :=
  ⟨fun c hc => hm.1 c ((hiff c).mpr hc),
   fun c hc => hm.2.1 c ((hiff c).mpr hc),
   fun x p hx => hm.2.2.1 x p (fun hq => hx ((hiff x).mp hq)),
   hm.2.2.2⟩

theorem midInv_of_inv {e : Nat} {s : Store} (h : TreeInv s) :
    MidInv e s (fun _ => False) :=
  ⟨fun c hc => absurd hc (by simp),
   fun c hc => absurd hc (by simp),
   fun x p _ hx => h.1 x p hx,
   fun p x hx => h.2 p x hx⟩

theorem nodeOK_of_mid {e : Nat} {s : Store} {P : Nat → Prop}
    (hm : MidInv e s P) (c : Nat) (hc : ¬P c) : NodeOK s c :=
  ⟨fun p hp => hm.2.2.1 c p hc hp, fun p hmm => hm.2.2.2 p c hmm⟩

/-- Helper for C7: one iteration of the detach loop. -/
theorem midInv_step {e : Nat} {s : Store} {P : Nat → Prop}
    (hm : MidInv e s P) (c : Nat) (hc : ¬P c) :
    MidInv e
      { detach s c with parent := upP (detach s c).parent c (some e) }
      (fun x => x = c ∨ P x) := by
  have hok := nodeOK_of_mid hm c hc
  refine ⟨?_, ?_, ?_, ?_⟩
  · intro d hd
    rcases hd with hd | hd
    · simp [upP, hd]
    · have hdc : d ≠ c := fun hh => hc (hh ▸ hd)
      simp only [upP, hdc, if_false]
      rw [detach_parent_ne s c d hdc]
      exact hm.1 d hd
  · intro d hd p
    rcases hd with hd | hd
    · rw [hd]
      exact detach_not_mem hok p
    · show d ∉ (detach s c).kids p
      rw [detach_kids hok p]
      intro hmem
      exact hm.2.1 d hd p (List.mem_of_mem_erase hmem)
  · intro x p hx hpar
    have hxc : x ≠ c := fun hh => hx (Or.inl hh)
    have hxP : ¬P x := fun hh => hx (Or.inr hh)
    simp only [upP, hxc, if_false] at hpar
    rw [detach_parent_ne s c x hxc] at hpar
    show ((detach s c).kids p).count x = 1
    rw [detach_kids hok p, List.count_erase_of_ne hxc]
    exact hm.2.2.1 x p hxP hpar
  · intro p x hx
    show upP (detach s c).parent c (some e) x = some p
    have hx' : x ∈ (detach s c).kids p := hx
    have hxc : x ≠ c := by
      intro hh
      rw [hh] at hx'
      exact detach_not_mem hok p hx'
    rw [detach_kids hok p] at hx'
    simp only [upP, hxc, if_false]
    rw [detach_parent_ne s c x hxc]
    exact hm.2.2.2 p x (List.mem_of_mem_erase hx')

/-- Helper for C7: the whole detach loop. -/
theorem detachAll_mid (e : Nat) :
    ∀ (cs : List Nat) (s : Store) (P : Nat → Prop),
      MidInv e s P → (∀ c ∈ cs, ¬P c) → cs.Nodup →
      MidInv e (detachAll e s cs) (fun x => x ∈ cs ∨ P x) := by
  intro cs
  induction cs with
  | nil =>
    intro s P hm _ _
    exact midInv_congr (fun x => by simp) hm
  | cons c cs' ih =>
    intro s P hm hP hnd
    have hstep := midInv_step hm c (hP c (by simp))
    have hnotin : ∀ d ∈ cs', ¬(d = c ∨ P d) := by
      intro d hd hor
      rcases hor with hh | hh
      · rw [hh] at hd
        exact (List.nodup_cons.mp hnd).1 hd
      · exact hP d (by simp [hd]) hh
    have hih := ih _ _ hstep hnotin (List.nodup_cons.mp hnd).2
    have : detachAll e s (c :: cs') =
        detachAll e { detach s c with
          parent := upP (detach s c).parent c (some e) } cs' := by
      simp [detachAll]
    rw [this]
    refine midInv_congr (fun x => ?_) hih
    constructor
    · rintro (hx | hx | hx)
      · exact Or.inl (by simp [hx])
      · exact Or.inl (by simp [hx])
      · exact Or.inr hx
    · rintro (hx | hx)
      · rcases List.mem_cons.mp hx with hh | hh
        · exact Or.inr (Or.inl hh)
        · exact Or.inl hh
      · exact Or.inr (Or.inr hx)

/-- Helper for C7: writing a recombined children list for `e` that contains
the old children of `e` and the pending nodes once each restores the
invariant. -/
theorem finish_insert (e : Nat) {s : Store} {cs : List Nat}
    (hm : MidInv e s (fun x => x ∈ cs)) (hnd : cs.Nodup) (K : List Nat)
    (hK : ∀ x, K.count x = (s.kids e).count x + cs.count x) :
    TreeInv { s with kids := upK s.kids e K } := by
  constructor
  · intro x p hx
    show (upK s.kids e K p).count x = 1
    by_cases hxc : x ∈ cs
    · have hpe : p = e := by
        have := hm.1 x hxc
        rw [this] at hx
        exact (Option.some.inj hx).symm
      rw [hpe]
      simp only [upK, if_true, eq_self_iff_true]
      rw [hK x, List.count_eq_zero.mpr (hm.2.1 x hxc e),
          List.count_eq_one_of_mem hnd hxc]
    · have h1 := hm.2.2.1 x p hxc hx
      by_cases hpe : p = e
      · rw [hpe]
        simp only [upK, if_true, eq_self_iff_true]
        rw [hK x, List.count_eq_zero.mpr hxc]
        rw [hpe] at h1
        rw [h1]
      · simp only [upK, hpe, if_false]
        exact h1
  · intro p x hx
    show s.parent x = some p
    by_cases hpe : p = e
    · rw [hpe] at hx ⊢
      simp only [upK, if_true, eq_self_iff_true] at hx
      have hcount : 0 < K.count x := List.count_pos_iff.mpr hx
      rw [hK x] at hcount
      rcases Nat.lt_or_ge 0 ((s.kids e).count x) with hgt | hge
      · exact hm.2.2.2 e x (List.count_pos_iff.mp hgt)
      · have : 0 < cs.count x := by omega
        exact hm.1 x (List.count_pos_iff.mp this)
    · simp only [upK, hpe, if_false] at hx
      exact hm.2.2.2 p x hx

/-- Helper for C7: `appendChildren` preservation. -/
theorem appendChildren_inv {s : Store} (h : TreeInv s) (e : Nat)
    {cs : List Nat} (hnd : cs.Nodup) : TreeInv (appendChildren s e cs) := by
  have hall := detachAll_mid e cs s (fun _ => False) (midInv_of_inv h)
    (fun c _ => not_false) hnd
  have hmid : MidInv e (detachAll e s cs) (fun x => x ∈ cs) :=
    midInv_congr (fun x => by simp) hall
  have := finish_insert e hmid hnd ((detachAll e s cs).kids e ++ cs)
    (fun x => by rw [List.count_append])
  exact this

/-- Helper for C7: `insertAt` preservation. -/
theorem insertAt_inv {s : Store} (h : TreeInv s) (e i : Nat)
    {cs : List Nat} (hnd : cs.Nodup) : TreeInv (insertAt s e i cs) := by
  have hall := detachAll_mid e cs s (fun _ => False) (midInv_of_inv h)
    (fun c _ => not_false) hnd
  have hmid : MidInv e (detachAll e s cs) (fun x => x ∈ cs) :=
    midInv_congr (fun x => by simp) hall
  have := finish_insert e hmid hnd
    (((detachAll e s cs).kids e).take i ++ cs ++
      ((detachAll e s cs).kids e).drop i)
    (fun x => by
      rw [List.count_append, List.count_append]
      conv_rhs => rw [← List.take_append_drop i ((detachAll e s cs).kids e)]
      rw [List.count_append]
      omega)
  exact this

/-- Helper for C7: count decomposition of `eraseIdx` at a valid index. -/
theorem count_eraseIdx_decomp (l : List Nat) (i : Nat) (hi : i < l.length)
    (x : Nat) :
    l.count x = (l.eraseIdx i).count x + if l[i] = x then 1 else 0 := by
  rw [List.eraseIdx_eq_take_drop_succ, List.count_append]
  conv_lhs => rw [← List.take_append_drop i l,
                  ← List.getElem_cons_drop l i hi]
  rw [List.count_append, List.count_cons]
  simp only [beq_iff_eq]
  omega

/-- Helper for C7: count decomposition of `set` at a valid index. -/
theorem count_set_decomp (l : List Nat) (i : Nat) (hi : i < l.length)
    (r x : Nat) :
    (l.set i r).count x = (l.eraseIdx i).count x + if r = x then 1 else 0 := by
  rw [List.set_eq_take_append_cons_drop, if_pos hi,
      List.eraseIdx_eq_take_drop_succ, List.count_append, List.count_append,
      List.count_cons]
  simp only [beq_iff_eq]
  omega

/-- Helper for C7: membership in `eraseIdx` implies membership. -/
theorem mem_of_mem_eraseIdx {l : List Nat} {i x : Nat}
    (h : x ∈ l.eraseIdx i) : x ∈ l := by
  rw [List.eraseIdx_eq_take_drop_succ] at h
  rcases List.mem_append.mp h with h | h
  · exact List.mem_of_mem_take h
  · exact List.mem_of_mem_drop h

/-- Helper for C7: `removeChildAt` preservation at a valid index. -/
theorem removeChildAt_inv {s : Store} (h : TreeInv s) (e i : Nat)
    (hi : i < (s.kids e).length) : TreeInv (removeChildAt s e i) := by
  have hget : (s.kids e)[i]? = some ((s.kids e)[i]) :=
    List.getElem?_eq_getElem hi
  have hc : removeChildAt s e i =
      { parent := upP s.parent ((s.kids e)[i]) none,
        kids := upK s.kids e ((s.kids e).eraseIdx i) } := by
    rw [removeChildAt, hget]
  rw [hc]
  have hcm : (s.kids e)[i] ∈ s.kids e := List.getElem_mem hi
  have hcp : s.parent ((s.kids e)[i]) = some e := h.2 e _ hcm
  have hcount : (s.kids e).count ((s.kids e)[i]) = 1 := h.1 _ e hcp
  constructor
  · intro x p hx
    simp only [upP] at hx
    by_cases hxc : x = (s.kids e)[i]
    · rw [if_pos hxc] at hx
      cases hx
    · rw [if_neg hxc] at hx
      show (upK s.kids e ((s.kids e).eraseIdx i) p).count x = 1
      by_cases hpe : p = e
      · rw [hpe]
        simp only [upK, if_true, eq_self_iff_true]
        have hdec := count_eraseIdx_decomp (s.kids e) i hi x
        rw [if_neg (fun hh => hxc hh.symm)] at hdec
        rw [hpe] at hx
        have := h.1 x e hx
        omega
      · simp only [upK, hpe, if_false]
        exact h.1 x p hx
  · intro p x hx
    simp only [upK] at hx
    by_cases hpe : p = e
    · rw [hpe, if_pos rfl] at hx
      have hxl : x ∈ s.kids e := mem_of_mem_eraseIdx hx
      have hxc : x ≠ (s.kids e)[i] := by
        intro hh
        have hz : ((s.kids e).eraseIdx i).count x = 0 := by
          have hdec := count_eraseIdx_decomp (s.kids e) i hi x
          rw [if_pos hh.symm] at hdec
          rw [hh] at hdec ⊢
          omega
        exact List.count_eq_zero.mp hz hx
      show upP s.parent ((s.kids e)[i]) none x = some p
      simp only [upP, hxc, if_false]
      rw [hpe]
      exact h.2 e x hxl
    · rw [if_neg hpe] at hx
      have hpar := h.2 p x hx
      have hxc : x ≠ (s.kids e)[i] := by
        intro hh
        rw [hh] at hpar
        rw [hpar] at hcp
        exact hpe (Option.some.inj hcp.symm).symm
      show upP s.parent ((s.kids e)[i]) none x = some p
      simp only [upP, hxc, if_false]
      exact hpar

/-- Helper for C7: `replaceChildAt` preservation, at a valid index and with a
replacement that is not already a child of the element being modified. -/
theorem replaceChildAt_inv {s : Store} (h : TreeInv s) (e i r : Nat)
    (hi : i < (s.kids e).length) (hr : r ∉ s.kids e) :
    TreeInv (replaceChildAt s e i r) := by
  have hget : (s.kids e)[i]? = some ((s.kids e)[i]) :=
    List.getElem?_eq_getElem hi
  have hok := nodeOK_of_inv h r
  have h1 := detach_inv h r
  have hns := detach_not_mem hok
  have hkide : (detach s r).kids e = s.kids e := by
    rw [detach_kids hok e, List.erase_of_not_mem hr]
  have hc : replaceChildAt s e i r =
      { parent := upP (upP (detach s r).parent ((s.kids e)[i]) none) r (some e),
        kids := upK (detach s r).kids e (((detach s r).kids e).set i r) } := by
    rw [replaceChildAt, hget]
  rw [hc]
  have hcm : (s.kids e)[i] ∈ s.kids e := List.getElem_mem hi
  have hcp : s.parent ((s.kids e)[i]) = some e := h.2 e _ hcm
  have hcount : (s.kids e).count ((s.kids e)[i]) = 1 := h.1 _ e hcp
  have hrc : r ≠ (s.kids e)[i] := fun hh => hr (hh ▸ hcm)
  -- count of the new children array of e
  have hsetc : ∀ x, (((detach s r).kids e).set i r).count x =
      ((s.kids e).eraseIdx i).count x + if r = x then 1 else 0 := by
    intro x
    rw [hkide]
    exact count_set_decomp (s.kids e) i hi r x
  constructor
  · intro x p hx
    simp only [upP] at hx
    by_cases hxr : x = r
    · rw [if_pos hxr] at hx
      have hpe : p = e := (Option.some.inj hx).symm
      show (upK (detach s r).kids e (((detach s r).kids e).set i r) p).count x = 1
      rw [hpe]
      simp only [upK, if_true, eq_self_iff_true]
      rw [hsetc x, if_pos hxr.symm]
      have hdec := count_eraseIdx_decomp (s.kids e) i hi x
      have hz : (s.kids e).count x = 0 :=
        List.count_eq_zero.mpr (fun hm => hr (hxr ▸ hm))
      rw [if_neg (fun hh => hrc (by rw [hxr] at hh; exact hh.symm))] at hdec
      omega
    · rw [if_neg hxr] at hx
      by_cases hxc : x = (s.kids e)[i]
      · rw [if_pos hxc] at hx
        cases hx
      · rw [if_neg hxc] at hx
        rw [detach_parent_ne s r x hxr] at hx
        have hcnt := h.1 x p hx
        show (upK (detach s r).kids e (((detach s r).kids e).set i r) p).count x = 1
        by_cases hpe : p = e
        · rw [hpe]
          simp only [upK, if_true, eq_self_iff_true]
          rw [hsetc x, if_neg (fun hh => hxr hh.symm)]
          have hdec := count_eraseIdx_decomp (s.kids e) i hi x
          rw [if_neg (fun hh => hxc hh.symm)] at hdec
          rw [hpe] at hcnt
          omega
        · simp only [upK, hpe, if_false]
          rw [detach_kids hok p, List.count_erase_of_ne (fun hh => hxr hh)]
          exact hcnt
  · intro p x hx
    simp only [upK] at hx
    show upP (upP (detach s r).parent ((s.kids e)[i]) none) r (some e) x = some p
    by_cases hpe : p = e
    · rw [hpe, if_pos rfl] at hx
      by_cases hxr : x = r
      · simp only [upP, hxr, if_true, eq_self_iff_true]
        rw [hpe]
      · -- x is in the set list but is not r, hence in the eraseIdx part
        have hxm : x ∈ (s.kids e).eraseIdx i := by
          have hcnt : 0 < (((detach s r).kids e).set i r).count x :=
            List.count_pos_iff.mpr hx
          rw [hsetc x, if_neg (fun hh => hxr hh.symm)] at hcnt
          exact List.count_pos_iff.mp (by omega)
        have hxl : x ∈ s.kids e := mem_of_mem_eraseIdx hxm
        have hxc : x ≠ (s.kids e)[i] := by
          intro hh
          have hz : ((s.kids e).eraseIdx i).count x = 0 := by
            have hdec := count_eraseIdx_decomp (s.kids e) i hi x
            rw [if_pos hh.symm] at hdec
            rw [hh] at hdec ⊢
            omega
          exact List.count_eq_zero.mp hz hxm
        simp only [upP, hxr, if_false, hxc]
        rw [detach_parent_ne s r x hxr, hpe]
        exact h.2 e x hxl
    · rw [if_neg hpe] at hx
      have hxr : x ≠ r := by
        intro hh
        rw [hh] at hx
        exact hns p hx
      rw [detach_kids hok p] at hx
      have hxl := List.mem_of_mem_erase hx
      have hpar := h.2 p x hxl
      have hxc : x ≠ (s.kids e)[i] := by
        intro hh
        rw [hh] at hpar
        rw [hpar] at hcp
        exact hpe (Option.some.inj hcp.symm).symm
      simp only [upP, hxr, if_false, hxc]
      rw [detach_parent_ne s r x hxr]
      exact hpar

/-- Helper for C7: `replaceChildWith` preservation (the argument is a child,
so `indexOfChild` does not throw, and the replacement is not a child of the
element). -/
theorem replaceChildWith_inv {s : Store} (h : TreeInv s) (e c r : Nat)
    (hc : s.parent c = some e) (hr : r ∉ s.kids e) :
    TreeInv (replaceChildWith s e c r) := by
  have hcm : c ∈ s.kids e := by
    have := h.1 c e hc
    exact List.count_pos_iff.mp (by omega)
  have hi : (s.kids e).indexOf c < (s.kids e).length :=
    List.indexOf_lt_length.mpr hcm
  exact replaceChildAt_inv h e _ r hi hr

/-- Helper for C7: the invariant respects pointwise equality of stores. -/
theorem treeInv_ext {s t : Store} (hp : ∀ x, t.parent x = s.parent x)
    (hk : ∀ p, t.kids p = s.kids p) (h : TreeInv s) : TreeInv t := by
  constructor
  · intro c p hc
    rw [hk]
    exact h.1 c p (by rw [← hp c]; exact hc)
  · intro p c hc
    rw [hp]
    exact h.2 p c (by rw [← hk p]; exact hc)

/-- Helper for C7: the components of `empty()`. -/
theorem emptyEl_parent (s : Store) (e x : Nat) :
    (emptyEl s e).parent x =
      if x ∈ s.kids e then none else s.parent x := rfl

theorem emptyEl_kids (s : Store) (e p : Nat) :
    (emptyEl s e).kids p = if p = e then [] else s.kids p := rfl

/-- Helper for C7: `empty()` preservation. -/
theorem emptyEl_inv {s : Store} (h : TreeInv s) (e : Nat) :
    TreeInv (emptyEl s e) := by
  constructor
  · intro x p hx
    rw [emptyEl_parent] at hx
    rw [emptyEl_kids]
    by_cases hm : x ∈ s.kids e
    · rw [if_pos hm] at hx
      cases hx
    · rw [if_neg hm] at hx
      by_cases hpe : p = e
      · exfalso
        have := h.1 x p hx
        rw [hpe] at this
        exact hm (List.count_pos_iff.mp (by omega))
      · rw [if_neg hpe]
        exact h.1 x p hx
  · intro p x hx
    rw [emptyEl_kids] at hx
    rw [emptyEl_parent]
    by_cases hpe : p = e
    · rw [if_pos hpe] at hx
      simp at hx
    · rw [if_neg hpe] at hx
      have hpar := h.2 p x hx
      have hm : x ∉ s.kids e := by
        intro hm
        have := h.2 e x hm
        rw [this] at hpar
        exact hpe (Option.some.inj hpar).symm
      rw [if_neg hm]
      exact hpar

/-- Helper for C7: the components of `grabChildren`. -/
theorem grabChildren_parent (s : Store) (e src x : Nat) :
    (grabChildren s e src).parent x =
      if x ∈ s.kids src then some e else s.parent x := rfl

theorem grabChildren_kids (s : Store) (e src p : Nat) :
    (grabChildren s e src).kids p =
      if p = e then (if e = src then [] else s.kids e) ++ s.kids src
      else if p = src then [] else s.kids p := by
  show upK (upK s.kids src []) e (upK s.kids src [] e ++ s.kids src) p = _
  unfold upK
  by_cases hpe : p = e
  · by_cases hes : e = src <;> simp [hpe, hes]
  · by_cases hps : p = src <;> simp [hpe, hps]

/-- Helper for C7: `grabChildren` preservation. -/
theorem grabChildren_inv {s : Store} (h : TreeInv s) (e src : Nat) :
    TreeInv (grabChildren s e src) := by
  by_cases hes : e = src
  · -- grabbing one's own children splices them out and pushes them back:
    -- the store is unchanged pointwise
    refine treeInv_ext (s := s) ?_ ?_ h
    · intro x
      rw [grabChildren_parent]
      by_cases hm : x ∈ s.kids src
      · rw [if_pos hm, hes]
        exact (h.2 src x hm).symm
      · rw [if_neg hm]
    · intro p
      rw [grabChildren_kids]
      by_cases hpe : p = e
      · rw [if_pos hpe, if_pos hes, List.nil_append, hpe, hes]
      · rw [if_neg hpe]
        by_cases hps : p = src
        · exact absurd (hps.trans hes.symm) hpe
        · rw [if_neg hps]
  · constructor
    · intro x p hx
      rw [grabChildren_parent] at hx
      rw [grabChildren_kids]
      by_cases hm : x ∈ s.kids src
      · -- a moved node: its new parent is e, and it occurs once in the
        -- grown children array of e
        rw [if_pos hm] at hx
        have hpe : p = e := (Option.some.inj hx).symm
        rw [if_pos hpe, if_neg hes, List.count_append]
        have hpar := h.2 src x hm
        have hzero : (s.kids e).count x = 0 := by
          refine List.count_eq_zero.mpr ?_
          intro hmm
          have := h.2 e x hmm
          rw [this] at hpar
          exact hes (Option.some.inj hpar)
        rw [hzero, h.1 x src hpar]
      · -- an unmoved node keeps its parent and its count
        rw [if_neg hm] at hx
        have hcnt := h.1 x p hx
        have hxz : (s.kids src).count x = 0 := List.count_eq_zero.mpr hm
        by_cases hpe : p = e
        · rw [if_pos hpe, if_neg hes, List.count_append, hxz]
          rw [hpe] at hcnt
          omega
        · rw [if_neg hpe]
          by_cases hps : p = src
          · exfalso
            rw [hps] at hcnt
            exact hm (List.count_pos_iff.mp (by omega))
          · rw [if_neg hps]
            exact hcnt
    · intro p x hx
      rw [grabChildren_kids] at hx
      rw [grabChildren_parent]
      by_cases hpe : p = e
      · rw [if_pos hpe, if_neg hes] at hx
        rcases List.mem_append.mp hx with hx2 | hx2
        · by_cases hm : x ∈ s.kids src
          · rw [if_pos hm, hpe]
          · rw [if_neg hm, hpe]
            exact h.2 e x hx2
        · rw [if_pos hx2, hpe]
      · rw [if_neg hpe] at hx
        by_cases hps : p = src
        · rw [if_pos hps] at hx
          simp at hx
        · rw [if_neg hps] at hx
          have hpar := h.2 p x hx
          have hm : x ∉ s.kids src := by
            intro hm
            have := h.2 src x hm
            rw [this] at hpar
            exact hps (Option.some.inj hpar).symm
          rw [if_neg hm]
          exact hpar

/-- Helper for C7: the components of `replaceContent`. -/
theorem replaceContent_parent (s : Store) (e : Nat) (cs : List Nat) (x : Nat) :
    (replaceContent s e cs).parent x =
      if x ∈ cs then some e else if x ∈ s.kids e then none else s.parent x :=
  rfl

theorem replaceContent_kids (s : Store) (e : Nat) (cs : List Nat) (p : Nat) :
    (replaceContent s e cs).kids p = if p = e then cs else s.kids p := rfl

/-- Helper for C7: `replaceContent` preservation, for fresh (parentless),
pairwise distinct argument nodes. -/
theorem replaceContent_inv {s : Store} (h : TreeInv s) (e : Nat)
    {cs : List Nat} (hnd : cs.Nodup) (hfree : ∀ c ∈ cs, s.parent c = none) :
    TreeInv (replaceContent s e cs) := by
  have hnk : ∀ c ∈ cs, ∀ p, c ∉ s.kids p := by
    intro c hc p hm
    have := h.2 p c hm
    rw [hfree c hc] at this
    cases this
  constructor
  · intro x p hx
    rw [replaceContent_parent] at hx
    rw [replaceContent_kids]
    by_cases hm : x ∈ cs
    · rw [if_pos hm] at hx
      have hpe : p = e := (Option.some.inj hx).symm
      rw [if_pos hpe]
      exact List.count_eq_one_of_mem hnd hm
    · rw [if_neg hm] at hx
      by_cases hprev : x ∈ s.kids e
      · rw [if_pos hprev] at hx
        cases hx
      · rw [if_neg hprev] at hx
        have hcnt := h.1 x p hx
        by_cases hpe : p = e
        · exfalso
          rw [hpe] at hcnt
          exact hprev (List.count_pos_iff.mp (by omega))
        · rw [if_neg hpe]
          exact hcnt
  · intro p x hx
    rw [replaceContent_kids] at hx
    rw [replaceContent_parent]
    by_cases hpe : p = e
    · rw [if_pos hpe] at hx
      rw [if_pos hx, hpe]
    · rw [if_neg hpe] at hx
      have hpar := h.2 p x hx
      have hm : x ∉ cs := fun hm => hnk x hm p hx
      have hprev : x ∉ s.kids e := by
        intro hmm
        have := h.2 e x hmm
        rw [this] at hpar
        exact hpe (Option.some.inj hpar).symm
      rw [if_neg hm, if_neg hprev]
      exact hpar

/-- Helper for C7: the two-node example store satisfies the invariant. -/
theorem cexStore_inv : TreeInv cexStore := by
  constructor
  · intro c p hc
    simp only [cexStore] at hc ⊢
    by_cases h1 : c = 1
    · rw [if_pos h1] at hc
      have hp : p = 0 := (Option.some.inj hc).symm
      rw [hp, if_pos rfl, h1]
      rfl
    · rw [if_neg h1] at hc
      cases hc
  · intro p c hc
    simp only [cexStore] at hc ⊢
    by_cases hp : p = 0
    · rw [if_pos hp] at hc
      have h1 : c = 1 := List.mem_singleton.mp hc
      rw [if_pos h1, hp]
    · rw [if_neg hp] at hc
      simp at hc

/-- Helper for C7: the empty store satisfies the invariant. -/
theorem emptyStore_inv : TreeInv emptyStore := by
  constructor
  · intro c p hc
    simp [emptyStore] at hc
  · intro p c hc
    simp [emptyStore] at hc

/-- Claim C7, counterexample: `replaceContent` on element 2 with argument
`[1]`, where node 1 is currently the child of node 0 — a tree satisfying the
invariant and an argument list without repetitions.  `replaceContent` does
not detach its arguments, so afterwards node 1 is still in node 0's children
array while its parent pointer names node 2: the invariant is broken.
(`replaceChildAt` with a replacement that is already a child of the same
element breaks it similarly.) -/
theorem claim7_counterexample :
    TreeInv cexStore ∧
    [1].Nodup ∧
    ¬ TreeInv (replaceContent cexStore 2 [1]) := by
  refine ⟨cexStore_inv, by decide, ?_⟩
  intro h
  have hmem : (1 : Nat) ∈ (replaceContent cexStore 2 [1]).kids 0 := by
    rw [replaceContent_kids]
    decide
  have hpar := h.2 0 1 hmem
  rw [replaceContent_parent] at hpar
  simp [cexStore] at hpar

/-- Claim C7 (amended): every mutation operation of the `Element` tree
preserves the parent/child invariant, under the preconditions of each
operation: argument lists without repetitions; for `removeChild` and
`replaceChildWith`, the named child really is a child; for `removeChildAt`
and `replaceChildAt`, a valid index; for `replaceChildWith`/`replaceChildAt`,
a replacement that is not already a child of the element being modified; and
for `replaceContent`, argument nodes that have no current parent. -/
theorem claim7_mutators :
    (∀ (s : Store) (e c : Nat), TreeInv s → TreeInv (appendChild s e c)) ∧
    (∀ (s : Store) (e : Nat) (cs : List Nat), TreeInv s → cs.Nodup →
        TreeInv (appendChildren s e cs)) ∧
    (∀ (s : Store) (e c : Nat), TreeInv s → TreeInv (prependChild s e c)) ∧
    (∀ (s : Store) (e i : Nat) (cs : List Nat), TreeInv s → cs.Nodup →
        TreeInv (insertAt s e i cs)) ∧
    (∀ (s : Store) (e c : Nat), TreeInv s → s.parent c = some e →
        TreeInv (removeChild s e c)) ∧
    (∀ (s : Store) (e i : Nat), TreeInv s → i < (s.kids e).length →
        TreeInv (removeChildAt s e i)) ∧
    (∀ (s : Store) (e c r : Nat), TreeInv s → s.parent c = some e →
        r ∉ s.kids e → TreeInv (replaceChildWith s e c r)) ∧
    (∀ (s : Store) (e i r : Nat), TreeInv s → i < (s.kids e).length →
        r ∉ s.kids e → TreeInv (replaceChildAt s e i r)) ∧
    (∀ (s : Store) (e : Nat), TreeInv s → TreeInv (emptyEl s e)) ∧
    (∀ (s : Store) (e src : Nat), TreeInv s →
        TreeInv (grabChildren s e src)) ∧
    (∀ (s : Store) (e : Nat) (cs : List Nat), TreeInv s → cs.Nodup →
        (∀ c ∈ cs, s.parent c = none) → TreeInv (replaceContent s e cs)) :=
  ⟨fun _ e c h => appendChild_inv h e c,
   fun _ e _ h hnd => appendChildren_inv h e hnd,
   fun _ e c h => prependChild_inv h e c,
   fun _ e i _ h hnd => insertAt_inv h e i hnd,
   fun _ _ _ h hc => removeChild_inv h hc,
   fun _ e i h hi => removeChildAt_inv h e i hi,
   fun _ e c r h hc hr => replaceChildWith_inv h e c r hc hr,
   fun _ e i r h hi hr => replaceChildAt_inv h e i r hi hr,
   fun _ e h => emptyEl_inv h e,
   fun _ e src h => grabChildren_inv h e src,
   fun _ e _ h hnd hfree => replaceContent_inv h e hnd hfree⟩

/-- Witness for C7: every conjunct applied at concrete stores, each
hypothesis discharged at the concrete input. -/
theorem claim7_mutators_witness :
    TreeInv (appendChild emptyStore 0 1) ∧
    TreeInv (appendChildren emptyStore 0 [1, 2]) ∧
    TreeInv (prependChild cexStore 0 2) ∧
    TreeInv (insertAt cexStore 0 0 [2, 3]) ∧
    TreeInv (removeChild cexStore 0 1) ∧
    TreeInv (removeChildAt cexStore 0 0) ∧
    TreeInv (replaceChildWith cexStore 0 1 2) ∧
    TreeInv (replaceChildAt cexStore 0 0 2) ∧
    TreeInv (emptyEl cexStore 0) ∧
    TreeInv (grabChildren cexStore 2 0) ∧
    TreeInv (replaceContent cexStore 0 [2]) :=
  ⟨claim7_mutators.1 emptyStore 0 1 emptyStore_inv,
   claim7_mutators.2.1 emptyStore 0 [1, 2] emptyStore_inv (by decide),
   claim7_mutators.2.2.1 cexStore 0 2 cexStore_inv,
   claim7_mutators.2.2.2.1 cexStore 0 0 [2, 3] cexStore_inv (by decide),
   claim7_mutators.2.2.2.2.1 cexStore 0 1 cexStore_inv (by rfl),
   claim7_mutators.2.2.2.2.2.1 cexStore 0 0 cexStore_inv (by decide),
   claim7_mutators.2.2.2.2.2.2.1 cexStore 0 1 2 cexStore_inv (by rfl)
     (by decide),
   claim7_mutators.2.2.2.2.2.2.2.1 cexStore 0 0 2 cexStore_inv (by decide)
     (by decide),
   claim7_mutators.2.2.2.2.2.2.2.2.1 cexStore 0 cexStore_inv,
   claim7_mutators.2.2.2.2.2.2.2.2.2.1 cexStore 2 0 cexStore_inv,
   claim7_mutators.2.2.2.2.2.2.2.2.2.2 cexStore 0 [2] cexStore_inv
     (by decide) (by intro c hc; simp at hc; rw [hc]; rfl)⟩

/-- Helper for C8: the suspended-whitespace firing never touches the
`_swallowAttributeValue` flag. -/
theorem fireSuspended_swallow (g : GW) :
    (fireSuspended g).2.swallowAttributeValue = g.swallowAttributeValue := by
  simp only [fireSuspended]
  split
  · rfl
  · split <;> rfl

/-- Claim C8, counterexample: after an `attributeName` event rejected by the
top frame (which sets the swallow flag), the next `fireEvent` call carries a
whitespace-only `text` event.  The claim says any non-`attributeValue` event
must produce the `"attribute value required"` error and clear the flag; the
code instead buffers the whitespace, returns `false`, and leaves the flag
set — the whitespace-only `text` case returns before the swallow check. -/
theorem claim8_counterexample :
    fireEvent cexGW "attributeName" ["u", "b"] =
      .ok (some [.attributeNameError "attribute not allowed here"
                   (CN.name "u" "b")], cexGW2) ∧
    cexGW2.swallowAttributeValue = true ∧
    fireEvent cexGW2 "text" [" "] = .ok (none, cexGW3) ∧
    cexGW3.swallowAttributeValue = true :=
  ⟨rfl, rfl, rfl, rfl⟩

/-- Claim C8 (amended): a rejected `attributeName` that produced no walker
errors sets the swallow flag, and the special-casing applies to the next
`fireEvent` call that is not a whitespace-only `text` event:

1. an `attributeName` rejected by the top frame returns the
   `AttributeNameError` and sets the flag (stated for a single-`RefWalker`
   frame, which rejects every `attributeName` without errors);
2. with the flag set, an `attributeValue` event returns `false` and clears
   the flag;
3. with the flag set, a whitespace-only (nonempty) `text` event is buffered,
   returns `false`, and leaves the flag set;
4. with the flag set, any other event returns the
   `"attribute value required"` error and clears the flag. -/
theorem claim8_swallowAttributeValue :
    (∀ (g : GW) (w : RWState) (ns l : String),
        g.swallowAttributeValue = false → g.frames = [[.refW w]] →
        fireEvent g "attributeName" [ns, l] =
          .ok (some [.attributeNameError "attribute not allowed here"
                       (.name ns l)],
               { g with frames := [[.refW w]], ignoreNextWs := false, suspendedWs := none, swallowAttributeValue := true })) ∧
    (∀ (g : GW) (v : String), g.swallowAttributeValue = true →
        fireEvent g "attributeValue" [v] =
          .ok (none, { g with ignoreNextWs := false, suspendedWs := none, swallowAttributeValue := false })) ∧
    (∀ (g : GW) (t : String), g.swallowAttributeValue = true →
        wsOnly t = true → t ≠ "" →
        fireEvent g "text" [t] =
          .ok (none, { g with suspendedWs := some t })) ∧
    (∀ (g : GW) (name : String) (ps : List String),
        g.swallowAttributeValue = true → name ≠ "attributeValue" →
        ¬(name = "text" ∧ wsOnly (ps.getD 0 "") = true) →
        (fireEvent g name ps).map
            (fun r => (r.1, r.2.swallowAttributeValue)) =
          .ok (some [.validationError "attribute value required"], false)) := by
  refine ⟨?_, ?_, ?_, ?_⟩
  · intro g w ns l h hf
    simp [fireEvent, fireCurrent, h, hf, iwFire, rwFireEvent, diagnose]
  · intro g v h
    simp [fireEvent, h]
  · intro g t _h hw hne
    simp [fireEvent, hw, hne]
  · intro g name ps h hav hnt
    have hb : (name == "text" && wsOnly (ps.getD 0 "")) = false := by
      by_cases ht : name = "text"
      · cases hw : wsOnly (ps.getD 0 "")
        · simp [hw]
        · exact absurd ⟨ht, hw⟩ hnt
      · simp [ht]
    have hv : (name == "attributeValue") = false := by simpa using hav
    by_cases hn1 : name = "endTag"
    · cases hig : g.ignoreNextWs <;> cases hsus : g.suspendedWs <;>
        simp [fireEvent, h, hv, hb, hn1, hig, hsus, fireSuspended_swallow,
              Except.map]
    · have he : (name == "endTag") = false := by simpa using hn1
      by_cases hn2 : name = "text"
      · have hwf : wsOnly (ps.getD 0 "") = false := by
          cases hw : wsOnly (ps.getD 0 "")
          · rfl
          · exact absurd ⟨hn2, hw⟩ hnt
        simp only [List.getD, List.get?_eq_getElem?] at hwf
        simp [fireEvent, h, hv, hb, hn1, hn2, he, hwf, Except.map]
      · simp [fireEvent, h, hv, hb, hn1, hn2, he, Except.map]

/-- Witness for C8: the four parts at concrete walker states. -/
theorem claim8_swallowAttributeValue_witness :
    fireEvent cexGW "attributeName" ["u", "b"] =
      .ok (some [.attributeNameError "attribute not allowed here"
                   (CN.name "u" "b")],
           { cexGW with frames := [[.refW ⟨CN.name "u" "a", true, false⟩]], ignoreNextWs := false, suspendedWs := none, swallowAttributeValue := true }) ∧
    fireEvent cexGW2 "attributeValue" ["v"] =
      .ok (none, { cexGW2 with ignoreNextWs := false, suspendedWs := none, swallowAttributeValue := false }) ∧
    fireEvent cexGW2 "text" [" "] =
      .ok (none, { cexGW2 with suspendedWs := some " " }) ∧
    (fireEvent cexGW2 "enterStartTag" ["u", "a"]).map
        (fun r => (r.1, r.2.swallowAttributeValue)) =
      .ok (some [.validationError "attribute value required"], false) :=
  ⟨claim8_swallowAttributeValue.1 cexGW ⟨CN.name "u" "a", true, false⟩
     "u" "b" rfl rfl,
   claim8_swallowAttributeValue.2.1 cexGW2 "v" rfl,
   claim8_swallowAttributeValue.2.2.1 cexGW2 " " rfl (by decide) (by decide),
   claim8_swallowAttributeValue.2.2.2 cexGW2 "enterStartTag" ["u", "a"] rfl
     (by decide) (by decide)⟩
